import Mathlib

/-!
Verification of the Name Guard core (Chinese personal-name detection and
placeholder replacement) against its natural-language specification.

The Python sources `name_guard_v2.py` (the optimized pipeline) and
`name_guard.py` (the legacy scorer) are shallowly embedded below.  Python
strings are modelled as Lean `String` / `List Char` (Python `len`, slicing
and indexing are all code-point based, matching `String.data`), Python sets
and dicts whose iteration order never matters are modelled as lists with
membership / first-match lookup, and the in-place mutation of
`occurrence_cache` is modelled by explicit state passing.
-/

namespace NameGuard

/-- Scanner core for `str.count`: `skip` counts characters still to be
consumed by the match just found (so matches never overlap). -/
def countOccAux (needle : List Char) : Nat → List Char → Nat
  | _, [] => 0
  | 0, c :: rest =>
    if needle.isPrefixOf (c :: rest) then
      1 + countOccAux needle (needle.length - 1) rest
    else countOccAux needle 0 rest
  | skip + 1, _ :: rest => countOccAux needle skip rest

/-- Python `haystack.count(needle)`: number of non-overlapping occurrences,
scanning left to right (`str.count`). -/
def countOcc (hay needle : List Char) : Nat :=
  countOccAux needle 0 hay

/-- Python `needle in haystack` (substring containment). -/
def containsSub (hay needle : List Char) : Bool :=
  hay.tails.any needle.isPrefixOf

/-- Python `word.startswith(p)`. -/
def startsWith (p w : String) : Bool :=
  p.data.isPrefixOf w.data

/-- Python `word.endswith(e)`. -/
def endsWith (e w : String) : Bool :=
  e.data.isSuffixOf w.data

/-- Python `word in collection` for a word collection. -/
def memStr (l : List String) (w : String) : Bool :=
  l.contains w

/-- Python `text.split(sep)` core loop: `acc` holds the reversed characters
of the piece currently being accumulated, and `skip` counts separator
characters still to be consumed after a match. -/
def splitCore (sep : List Char) : Nat → List Char → List Char → List (List Char)
  | _, acc, [] => [acc.reverse]
  | 0, acc, c :: rest =>
    if sep.isPrefixOf (c :: rest) then
      acc.reverse :: splitCore sep (sep.length - 1) [] rest
    else splitCore sep 0 (c :: acc) rest
  | skip + 1, acc, _ :: rest => splitCore sep skip acc rest

/-- Python `text.split(sep)` for a non-empty separator (the only way the
core calls it; the empty-separator branch keeps the model total). -/
def pySplit (text sep : List Char) : List (List Char) :=
  if sep.isEmpty then [text] else splitCore sep 0 [] text

/-- Helper for `sep.join(parts)`: the tail pieces, each preceded by `sep`. -/
def joinAux (sep : List Char) : List (List Char) → List Char
  | [] => []
  | p :: ps => sep ++ p ++ joinAux sep ps

/-- Python `sep.join(parts)`. -/
def joinWithSep (sep : List Char) : List (List Char) → List Char
  | [] => []
  | p :: ps => p ++ joinAux sep ps

/-- Replace every (non-overlapping, left-to-right) occurrence of `pat` by
`repl`; used to model `str.format` with a single named slot.  `skip`
counts pattern characters still to be consumed after a match. -/
def replaceSub (pat repl : List Char) : Nat → List Char → List Char
  | _, [] => []
  | 0, c :: rest =>
    if pat.isPrefixOf (c :: rest) then
      repl ++ replaceSub pat repl (pat.length - 1) rest
    else c :: replaceSub pat repl 0 rest
  | skip + 1, _ :: rest => replaceSub pat repl skip rest

/-- Python `fmt.format(index=i)` for a template whose only slot is
`{index}` (e.g. the default `<<NAME_{index}>>`). -/
def formatPlaceholder (fmt : String) (i : Nat) : String :=
  ⟨replaceSub "\x7bindex\x7d".data (toString i).data 0 fmt.data⟩

/-- Stable insertion of `x` into a descending-sorted list: `x` goes in
front of the first element of strictly lower priority, i.e. after every
element of greater-or-equal priority.  `lt a b` reads "a has strictly
lower priority than b". -/
def insertDesc (lt : α → α → Bool) (x : α) : List α → List α
  | [] => [x]
  | y :: ys => if lt y x then x :: y :: ys else y :: insertDesc lt x ys

/-- Python `sorted(l, key, reverse=True)`: a stable descending sort. -/
def pySortDesc (lt : α → α → Bool) (l : List α) : List α :=
  l.foldl (fun acc x => insertDesc lt x acc) []

/-- `NameGuardConfig` (the spec's RuleSet): resolved, read-only
configuration shared by both implementations.  Python sets/lists whose
iteration order never affects results are lists here. -/
structure NameGuardConfig where
  threshold : Int := 100
  name_placeholder_format : String := "<<NAME_\x7bindex\x7d>>"
  require_strong_signal : Bool := true
  honorific_suffix_weight : Int := 100
  honorific_prefix_weight : Int := 100
  call_position_weight : Int := 80
  repetition_weight : Int := 40
  pos_exclusion_weight : Int := -30
  length_structure_weight : Int := 10
  honorific_suffix_patterns : List String := []
  honorific_prefix_patterns : List String := ["老", "小", "阿"]
  repetition_min_occurrences : Nat := 2
  pos_exclusion_words : List String := []
  length_preferred : List Nat := [1, 2, 3]
  length_exclude_endings : List String := []
  interjections : List String := []
  action_verbs : List String := []
  pronouns : List String := []
  numbers_quantifiers : List String := []
  kinship_roles : List String := []
  known_names : List String := []
  exclude_names : List String := []
deriving Repr, DecidableEq

/-- `NameCandidate`: a detected name span.  `start`/`stop` (Python
`start`/`end`) are code-point offsets of the name part into the owning
part, excluding any affix. -/
structure NameCandidate where
  name : String
  start : Nat
  stop : Nat
  score : Int
  has_affix : Bool
  affix_type : String := ""
  affix : String := ""
deriving Repr, DecidableEq

/-- `NameCandidate.priority`: ordering key for overlap resolution. -/
def NameCandidate.priority (c : NameCandidate) : Int × Int × Int :=
  ((if c.has_affix then 1 else 0), c.score, -(c.start : Int))

end NameGuard

namespace NameGuardV2

open NameGuard

/-- A character the `CHINESE_PATTERN` regex `[一-鿿]` accepts. -/
def isCJK (c : Char) : Bool :=
  0x4e00 ≤ c.toNat && c.toNat ≤ 0x9fff

/-- `NameGuard.BOUNDARY_CHARS`. -/
def BOUNDARY_CHARS : List Char :=
  "，。！？、；：,.!?;: \t\n".data

/-- `CHINESE_PATTERN.finditer(part)`: the maximal runs of CJK characters,
each with its start offset.  `skip` counts characters belonging to the
run just emitted that the scanner still has to move past. -/
def cjkRunsAux : Nat → Nat → List Char → List (Nat × List Char)
  | _, _, [] => []
  | skip + 1, i, _ :: rest => cjkRunsAux skip (i + 1) rest
  | 0, i, c :: rest =>
    if isCJK c then
      (i, c :: rest.takeWhile isCJK) ::
        cjkRunsAux (rest.takeWhile isCJK).length (i + 1) rest
    else cjkRunsAux 0 (i + 1) rest

def cjkRuns (part : List Char) : List (Nat × List Char) :=
  cjkRunsAux 0 0 part

/-- `NameGuard.is_strongly_excluded` (gate 1). -/
def is_strongly_excluded (cfg : NameGuardConfig) (word : String) : Bool :=
  memStr cfg.interjections word
  || cfg.interjections.any (fun intj => 2 ≤ intj.length && containsSub word.data intj.data)
  || (2 ≤ word.length && cfg.action_verbs.any (fun verb => startsWith verb word))
  || cfg.pronouns.any (fun pronoun => containsSub word.data pronoun.data)
  || cfg.numbers_quantifiers.any (fun num => containsSub word.data num.data)
  || memStr cfg.kinship_roles word

/-- `NameGuard._extract_from_suffix_word`: match the anchored regex
`^([一-鿿]{1,3})(s1|s2|...)$`.  The greedy `{1,3}` group takes the longest
CJK prefix (at most 3) whose remainder is exactly one of the configured
suffix patterns; the alternation order only selects among patterns equal
to that same remainder, so it does not affect the result. -/
def extract_from_suffix_word (cfg : NameGuardConfig) (word : String) : Option (String × String) :=
  if cfg.honorific_suffix_patterns.isEmpty then none
  else
    match ((List.range (min 3 (word.data.takeWhile isCJK).length)).map (· + 1)).reverse.find?
        (fun k => memStr cfg.honorific_suffix_patterns ⟨word.data.drop k⟩) with
    | some k => some (⟨word.data.take k⟩, ⟨word.data.drop k⟩)
    | none => none

/-- `NameGuard._extract_from_prefix_word`: match the anchored regex
`^(p1|p2|...)([一-鿿]{1,2})$` with alternatives sorted by length,
longest first (a stable sort, like Python's `sorted(key=len,
reverse=True)`).  The first alternative that is a prefix of the word and
leaves a 1-2 character CJK remainder wins. -/
def extract_from_prefix_word (cfg : NameGuardConfig) (word : String) : Option (String × String) :=
  if cfg.honorific_prefix_patterns.isEmpty then none
  else
    match (pySortDesc (fun a b : String => a.length < b.length)
        cfg.honorific_prefix_patterns).find? (fun p => p.data.isPrefixOf word.data
          && 1 ≤ word.data.length - p.length && word.data.length - p.length ≤ 2
          && (word.data.drop p.length).all isCJK) with
    | some p => some (⟨word.data.drop p.length⟩, p)
    | none => none

/-- One step of the occurrence cache: `if word not in cache: cache[word] =
context.count(word)`. -/
def cacheInsert (cache : List (String × Nat)) (word context : String) : List (String × Nat) :=
  if (cache.lookup word).isSome then cache
  else cache ++ [(word, countOcc context.data word.data)]

/-- `NameGuard.score_candidate`: weighted rule evaluation.  The Python
code accumulates `score`/`has_strong_signal` imperatively; each rule's
condition is independent of the accumulators, so the result is the sum of
the per-rule contributions, with the cache threaded through rule 3. -/
def score_candidate (cfg : NameGuardConfig) (word context : String)
    (is_call_position has_affix : Bool) (cache : List (String × Nat)) :
    Int × Bool × List (String × Nat) :=
  let word_len := word.length
  -- rule 1: honorific affix (the code adds the *suffix* weight for both shapes)
  let s1 : Int := if has_affix then cfg.honorific_suffix_weight else 0
  let g1 : Bool := has_affix
  -- rule 2: call position
  let rule2 : Bool := is_call_position && 0 < cfg.call_position_weight
  let s2 : Int := if rule2 then cfg.call_position_weight else 0
  let g2 : Bool := rule2 && 2 ≤ word_len && word_len ≤ 3
  -- rule 3: repetition (the only rule that touches the occurrence cache)
  let rep_on : Bool := 0 < cfg.repetition_weight
  let cache' := if rep_on then cacheInsert cache word context else cache
  let occurrences := (cache'.lookup word).getD 0
  let rule3 : Bool := rep_on && cfg.repetition_min_occurrences ≤ occurrences
  let s3 : Int := if rule3 then cfg.repetition_weight else 0
  let g3 : Bool := rule3 && 2 ≤ word_len && word_len ≤ 3
  -- rule 4: POS exclusion (negative weight)
  let s4 : Int := if memStr cfg.pos_exclusion_words word then cfg.pos_exclusion_weight else 0
  -- rule 5: length and structure
  let s5 : Int :=
    if cfg.length_preferred.contains word_len
        && !(cfg.length_exclude_endings.any (fun e => endsWith e word)) then
      cfg.length_structure_weight
    else 0
  (s1 + s2 + s3 + s4 + s5, g1 || g2 || g3, cache')

/-- `NameGuard.is_name` (v2): allow-list, gate 1, deny-list, scoring,
gate 2, threshold. -/
def is_name (cfg : NameGuardConfig) (word context : String)
    (is_call_position has_affix : Bool) (cache : List (String × Nat)) :
    (Bool × Int) × List (String × Nat) :=
  if memStr cfg.known_names word then ((true, 999), cache)
  else if is_strongly_excluded cfg word then ((false, -999), cache)
  else if memStr cfg.exclude_names word then ((false, -999), cache)
  else
    let r := score_candidate cfg word context is_call_position has_affix cache
    if cfg.require_strong_signal && !r.2.1 then ((false, 0), r.2.2)
    else ((decide (cfg.threshold ≤ r.1), r.1), r.2.2)

/-- `char in BOUNDARY_CHARS` for the character at `pos`, `False` when
there is no such character (Python's `None in set`). -/
def boundary_char_at (text : List Char) (pos : Nat) : Bool :=
  match text.get? pos with
  | some c => BOUNDARY_CHARS.contains c
  | none => false

/-- `NameGuard._is_at_boundary`. -/
def is_at_boundary (text : List Char) (start stop : Nat) : Bool :=
  let at_start := start == 0
  let at_end := stop == text.length
  let before_is_boundary := at_start || boundary_char_at text (start - 1)
  let after_is_boundary := at_end || boundary_char_at text stop
  before_is_boundary || after_is_boundary

/-- The span lengths enumerated per run: `range(min(4, len(segment)), 0, -1)`. -/
def spanLengths (n : Nat) : List Nat :=
  ((List.range (min 4 n)).map (· + 1)).reverse

/-- All `(length, i)` pairs, lengths descending and starts ascending. -/
def spanPairs (n : Nat) : List (Nat × Nat) :=
  (spanLengths n).flatMap (fun len => (List.range (n - len + 1)).map (fun i => (len, i)))

/-- The body of the innermost loop of
`NameGuard._extract_candidates_from_part`, for the sub-span of `seg`
(which starts at `seg_start` in `part`) at offset `i` with `length`
characters. -/
def processSpan (cfg : NameGuardConfig) (part : List Char) (full_context : String)
    (seg_start : Nat) (seg : List Char)
    (acc : List NameCandidate × List (String × Nat)) (li : Nat × Nat) :
    List NameCandidate × List (String × Nat) :=
  let length := li.1
  let i := li.2
  let cands := acc.1
  let cache := acc.2
  let word : String := ⟨(seg.drop i).take length⟩
  let word_start := seg_start + i
  let word_end := word_start + length
  let is_call_pos := word_start == 0
  match extract_from_suffix_word cfg word with
  | some ns =>
    let name_part := ns.1
    let name_start := word_start
    let name_end := word_start + name_part.length
    let r := is_name cfg name_part full_context is_call_pos true cache
    if r.1.1 then
      (cands ++ [{ name := name_part, start := name_start, stop := name_end,
                   score := r.1.2, has_affix := true, affix_type := "suffix",
                   affix := ns.2 }], r.2)
    else (cands, r.2)
  | none =>
    match extract_from_prefix_word cfg word with
    | some np =>
      let name_part := np.1
      let name_start := word_start + np.2.length
      let name_end := word_end
      let r := is_name cfg name_part full_context is_call_pos true cache
      if r.1.1 then
        (cands ++ [{ name := name_part, start := name_start, stop := name_end,
                     score := r.1.2, has_affix := true, affix_type := "prefix",
                     affix := np.2 }], r.2)
      else (cands, r.2)
    | none =>
      if 1 ≤ length && length ≤ 3 then
        if is_at_boundary part word_start word_end then
          let r := is_name cfg word full_context is_call_pos false cache
          if r.1.1 then
            (cands ++ [{ name := word, start := word_start, stop := word_end,
                         score := r.1.2, has_affix := false }], r.2)
          else (cands, r.2)
        else (cands, cache)
      else (cands, cache)

/-- Process one CJK run: enumerate every sub-span of length 1-4. -/
def processRun (cfg : NameGuardConfig) (part : List Char) (full_context : String)
    (acc : List NameCandidate × List (String × Nat)) (run : Nat × List Char) :
    List NameCandidate × List (String × Nat) :=
  (spanPairs run.2.length).foldl (processSpan cfg part full_context run.1 run.2) acc

/-- `NameGuard._extract_candidates_from_part`.  (`is_first_part` is a
parameter of the Python method but is never read by its body.) -/
def extract_candidates_from_part (cfg : NameGuardConfig) (part : List Char)
    (full_context : String) (_is_first_part : Bool) (cache : List (String × Nat)) :
    List NameCandidate × List (String × Nat) :=
  (cjkRuns part).foldl (processRun cfg part full_context) ([], cache)

/-- Strict lexicographic comparison of priority triples: the sort key
order used by `sorted(candidates, key=lambda c: c.priority, reverse=True)`. -/
def prLt (p q : Int × Int × Int) : Bool :=
  p.1 < q.1 || (p.1 == q.1 && (p.2.1 < q.2.1 || (p.2.1 == q.2.1 && p.2.2 < q.2.2)))

/-- Candidate comparison by `priority`. -/
def candLt (a b : NameCandidate) : Bool :=
  prLt a.priority b.priority

/-- The greedy acceptance loop of `NameGuard._select_non_overlapping`:
accept a candidate iff its span does not intersect any already-used range. -/
def selectGreedy : List (Nat × Nat) → List NameCandidate → List NameCandidate
  | _, [] => []
  | used, c :: cs =>
    if used.any (fun se => c.start < se.2 && se.1 < c.stop) then
      selectGreedy used cs
    else c :: selectGreedy (used ++ [(c.start, c.stop)]) cs

/-- `NameGuard._select_non_overlapping`. -/
def select_non_overlapping (candidates : List NameCandidate) : List NameCandidate :=
  if candidates.isEmpty then []
  else selectGreedy [] (pySortDesc candLt candidates)

/-- The result of the placeholder-assignment loop over one part's selected
candidates: the updated maps/counters and the replacement triples. -/
structure AssignResult where
  name_map : List (String × String)
  name_to_placeholder : List (String × String)
  name_index : Nat
  all_names : List String
  reps : List (Nat × Nat × String)
deriving Repr

/-- The `for candidate in selected` loop of `extract_and_replace_names`:
reuse the placeholder of an already-seen name, otherwise mint a fresh one,
and record a `(start, end, placeholder)` replacement triple. -/
def assignPlaceholders (cfg : NameGuardConfig) :
    List NameCandidate → List (String × String) → List (String × String) →
    Nat → List String → AssignResult
  | [], name_map, ntp, idx, all_names =>
    { name_map := name_map, name_to_placeholder := ntp, name_index := idx,
      all_names := all_names, reps := [] }
  | c :: cs, name_map, ntp, idx, all_names =>
    match ntp.lookup c.name with
    | some ph =>
      let r := assignPlaceholders cfg cs name_map ntp idx all_names
      { r with reps := (c.start, c.stop, ph) :: r.reps }
    | none =>
      let ph := formatPlaceholder cfg.name_placeholder_format idx
      let r := assignPlaceholders cfg cs (name_map ++ [(ph, c.name)])
        (ntp ++ [(c.name, ph)]) (idx + 1) (all_names ++ [c.name])
      { r with reps := (c.start, c.stop, ph) :: r.reps }

/-- Comparison for `sorted(replacements, key=lambda x: -x[0])`: a triple
has lower priority iff its start offset is smaller. -/
def repLt (a b : Nat × Nat × String) : Bool :=
  a.1 < b.1

/-- One splice `replaced_part[:start] + placeholder + replaced_part[end:]`. -/
def splice (p : List Char) (r : Nat × Nat × String) : List Char :=
  p.take r.1 ++ r.2.2.data ++ p.drop r.2.1

/-- The descending-offset rewrite loop of `extract_and_replace_names`. -/
def applyReplacements (part : List Char) (reps : List (Nat × Nat × String)) : List Char :=
  reps.foldl splice part

/-- The per-invocation mutable state of `extract_and_replace_names`. -/
structure LoopState where
  name_map : List (String × String)
  name_to_placeholder : List (String × String)
  name_index : Nat
  occurrence_cache : List (String × Nat)
  replaced_parts : List (List Char)
  all_names : List String
deriving Repr

/-- The `for part_idx, part in enumerate(parts)` body. -/
def processPart (cfg : NameGuardConfig) (text : String) (st : LoopState)
    (ip : Nat × List Char) : LoopState :=
  let ec := extract_candidates_from_part cfg ip.2 text (ip.1 == 0) st.occurrence_cache
  let selected := select_non_overlapping ec.1
  let ar := assignPlaceholders cfg selected st.name_map st.name_to_placeholder
    st.name_index st.all_names
  let replaced_part := applyReplacements ip.2 (pySortDesc repLt ar.reps)
  { name_map := ar.name_map, name_to_placeholder := ar.name_to_placeholder,
    name_index := ar.name_index, occurrence_cache := ec.2,
    replaced_parts := st.replaced_parts ++ [replaced_part],
    all_names := ar.all_names }

/-- `NameGuard.extract_and_replace_names` (v2), the public entry point:
returns `(rewritten_text, placeholder→name map, names in first-seen
order)`. -/
def extract_and_replace_names (cfg : NameGuardConfig) (text : String)
    (sep_marker : String := " <sep> ") :
    String × List (String × String) × List String :=
  let parts := pySplit text.data sep_marker.data
  let st0 : LoopState :=
    { name_map := [], name_to_placeholder := [], name_index := 0,
      occurrence_cache := [], replaced_parts := [], all_names := [] }
  let final := parts.enum.foldl (processPart cfg text) st0
  (⟨joinWithSep sep_marker.data final.replaced_parts⟩, final.name_map, final.all_names)

end NameGuardV2

namespace NameGuardV1

open NameGuard

/-- `NameGuard.score_word` (legacy implementation): weighted rule
evaluation returning the total and a per-rule score detail (a dict in
Python, an insertion-ordered association list here). -/
def score_word (cfg : NameGuardConfig) (word context : String) (_position : Nat)
    (is_utterance_start is_after_sep : Bool) : Int × List (String × Int) :=
  let d1 : List (String × Int) :=
    if 0 < cfg.honorific_suffix_weight
        && cfg.honorific_suffix_patterns.any (fun pat => endsWith pat word) then
      [("honorific_suffix", cfg.honorific_suffix_weight)]
    else []
  let d2 : List (String × Int) :=
    if 0 < cfg.call_position_weight && (is_utterance_start || is_after_sep) then
      [("call_position", cfg.call_position_weight)]
    else []
  let d3 : List (String × Int) :=
    if 0 < cfg.repetition_weight
        && cfg.repetition_min_occurrences ≤ countOcc context.data word.data then
      [("repetition", cfg.repetition_weight)]
    else []
  let d4 : List (String × Int) :=
    if cfg.pos_exclusion_weight < 0 && memStr cfg.pos_exclusion_words word then
      [("pos_exclusion", cfg.pos_exclusion_weight)]
    else []
  let d5 : List (String × Int) :=
    if 0 < cfg.length_structure_weight && cfg.length_preferred.contains word.length
        && !(cfg.length_exclude_endings.any (fun e => endsWith e word)) then
      [("length_structure", cfg.length_structure_weight)]
    else []
  let scores := d1 ++ d2 ++ d3 ++ d4 ++ d5
  ((scores.map Prod.snd).sum, scores)

/-- `NameGuard.is_strongly_excluded` (legacy, gate 1). -/
def is_strongly_excluded (cfg : NameGuardConfig) (word : String) : Bool :=
  memStr cfg.interjections word
  || cfg.interjections.any (fun intj => containsSub word.data intj.data && 2 ≤ intj.length)
  || (2 ≤ word.length && cfg.action_verbs.any (fun verb => startsWith verb word))
  || cfg.pronouns.any (fun pronoun => containsSub word.data pronoun.data)
  || cfg.numbers_quantifiers.any (fun num => containsSub word.data num.data)
  || memStr cfg.kinship_roles word

/-- `NameGuard.has_strong_signal` (legacy, gate 2). -/
def has_strong_signal (cfg : NameGuardConfig) (word context : String)
    (is_utterance_start is_after_sep has_sfx : Bool) : Bool :=
  let word_len := word.length
  has_sfx
  || cfg.honorific_suffix_patterns.any (fun pat =>
      -- `word[:-len(pattern)]` is empty when the pattern is empty
      let name_part_len := if pat.length == 0 then 0 else word_len - pat.length
      endsWith pat word && 2 ≤ word_len
      && 1 ≤ name_part_len && name_part_len ≤ 3)
  || (2 ≤ word_len && word_len ≤ 3
      && cfg.repetition_min_occurrences ≤ countOcc context.data word.data)
  || (2 ≤ word_len && word_len ≤ 3 && (is_utterance_start || is_after_sep))

/-- `NameGuard.is_name` (legacy): allow-list, gate 1, deny-list, gate 2,
scoring, threshold.  Returns `(is_name, score, score detail)`. -/
def is_name (cfg : NameGuardConfig) (word context : String) (position : Nat)
    (is_utterance_start is_after_sep skip_strong_signal_check : Bool) :
    Bool × Int × List (String × Int) :=
  if memStr cfg.known_names word then (true, 999, [("known_name", 999)])
  else if is_strongly_excluded cfg word then (false, -999, [("strong_exclusion", -999)])
  else if memStr cfg.exclude_names word && !(memStr cfg.known_names word) then
    (false, -999, [("exclude_name", -999)])
  else if cfg.require_strong_signal && !skip_strong_signal_check
      && !(has_strong_signal cfg word context is_utterance_start is_after_sep false) then
    (false, 0, [("no_strong_signal", 0)])
  else
    let r := score_word cfg word context position is_utterance_start is_after_sep
    (decide (cfg.threshold ≤ r.1), r.1, r.2)

end NameGuardV1

/-! ## Example configurations used by witnesses and counterexamples -/

namespace NameGuard

/-- The default configuration with `哥` as the only suffix honorific. -/
def exampleCfgSuffix : NameGuardConfig :=
  { honorific_suffix_patterns := ["哥"] }

/-- Like `exampleCfgSuffix` plus the allow-listed word `哥斯`. -/
def exampleCfgOverlap : NameGuardConfig :=
  { honorific_suffix_patterns := ["哥"], known_names := ["哥斯"] }

/-- No honorific patterns; `平安` is allow-listed. -/
def exampleCfgKnown : NameGuardConfig :=
  { honorific_suffix_patterns := [], honorific_prefix_patterns := [],
    known_names := ["平安"] }

/-- A word that is allow-listed, deny-listed and a kinship role at once. -/
def exampleCfgBothLists : NameGuardConfig :=
  { known_names := ["张三"], exclude_names := ["张三"], kinship_roles := ["张三"] }

/-- A default-weight configuration with empty word lists. -/
def exampleCfgPlain : NameGuardConfig := {}

/-- Candidates exercising the priority order: one affixed low-score
candidate and two plain high-score candidates at different offsets. -/
def exampleCands : List NameCandidate :=
  [{ name := "甲", start := 0, stop := 1, score := 999, has_affix := false },
   { name := "乙", start := 5, stop := 6, score := 1, has_affix := true,
     affix_type := "suffix", affix := "哥" },
   { name := "丙", start := 3, stop := 4, score := 999, has_affix := false }]

end NameGuard

/-! ## Generic infrastructure lemmas -/

namespace NameGuard

theorem foldl_inv {f : β → α → β} {P : β → Prop} :
    ∀ (l : List α) (init : β), P init → (∀ b a, a ∈ l → P b → P (f b a)) →
      P (l.foldl f init)
  | [], _, h, _ => h
  | a :: l, init, h, hstep =>
    foldl_inv l (f init a) (hstep init a (List.mem_cons_self a l) h)
      (fun b x hx hb => hstep b x (List.mem_cons_of_mem a hx) hb)

theorem mem_insertDesc {lt : α → α → Bool} {x a : α} :
    ∀ {l : List α}, a ∈ insertDesc lt x l ↔ a = x ∨ a ∈ l
  | [] => by simp [insertDesc]
  | y :: ys => by
    simp only [insertDesc]
    split
    · simp
    · rw [List.mem_cons, List.mem_cons, mem_insertDesc (l := ys)]
      tauto

theorem insertDesc_perm (lt : α → α → Bool) (x : α) :
    ∀ (l : List α), (insertDesc lt x l).Perm (x :: l)
  | [] => List.Perm.refl _
  | y :: ys => by
    simp only [insertDesc]
    split
    · exact List.Perm.refl _
    · exact ((insertDesc_perm lt x ys).cons y).trans (List.Perm.swap x y ys)

theorem pySortDesc_perm (lt : α → α → Bool) (l : List α) :
    (pySortDesc lt l).Perm l := by
  suffices h : ∀ (l acc : List α),
      (l.foldl (fun acc x => insertDesc lt x acc) acc).Perm (acc ++ l) by
    simpa using h l []
  intro l
  induction l with
  | nil => simp
  | cons x xs ih =>
    intro acc
    have hstep : ((x :: xs).foldl (fun acc x => insertDesc lt x acc) acc) =
        xs.foldl (fun acc x => insertDesc lt x acc) (insertDesc lt x acc) := rfl
    rw [hstep]
    have hmid : (insertDesc lt x acc ++ xs).Perm (acc ++ x :: xs) :=
      ((insertDesc_perm lt x acc).append_right xs).trans List.perm_middle.symm
    exact (ih (insertDesc lt x acc)).trans hmid

theorem insertDesc_pairwise {lt : α → α → Bool}
    (h1 : ∀ a b, lt a b = true → lt b a = false)
    (h2 : ∀ a b c, lt a b = false → lt b c = false → lt a c = false)
    (x : α) : ∀ {l : List α}, l.Pairwise (fun a b => lt a b = false) →
      (insertDesc lt x l).Pairwise (fun a b => lt a b = false)
  | [], _ => by simp [insertDesc]
  | y :: ys, hp => by
    simp only [insertDesc]
    rw [List.pairwise_cons] at hp
    split
    · rename_i hyx
      refine List.Pairwise.cons ?_ (List.Pairwise.cons hp.1 hp.2)
      intro b hb
      rcases List.mem_cons.mp hb with rfl | hb
      · exact h1 _ _ hyx
      · exact h2 _ _ _ (h1 _ _ hyx) (hp.1 b hb)
    · rename_i hyx
      refine List.Pairwise.cons ?_ (insertDesc_pairwise h1 h2 x hp.2)
      intro b hb
      rcases mem_insertDesc.mp hb with rfl | hb
      · simpa using hyx
      · exact hp.1 b hb

theorem pySortDesc_pairwise {lt : α → α → Bool}
    (h1 : ∀ a b, lt a b = true → lt b a = false)
    (h2 : ∀ a b c, lt a b = false → lt b c = false → lt a c = false)
    (l : List α) :
    (pySortDesc lt l).Pairwise (fun a b => lt a b = false) := by
  refine foldl_inv l [] (List.Pairwise.nil) ?_
  intro b a _ hb
  exact insertDesc_pairwise h1 h2 a hb

/-! ### Splitting and joining -/

theorem splitCore_ne_nil (sep : List Char) :
    ∀ (l : List Char) (skip : Nat) (acc : List Char), splitCore sep skip acc l ≠ []
  | [], skip, acc => by cases skip <;> simp [splitCore]
  | c :: rest, 0, acc => by
    rw [splitCore]
    split
    · simp
    · exact splitCore_ne_nil sep rest 0 (c :: acc)
  | c :: rest, skip + 1, acc => splitCore_ne_nil sep rest skip acc

theorem joinWithSep_cons_of_ne_nil (sep p : List Char) {ps : List (List Char)}
    (h : ps ≠ []) :
    joinWithSep sep (p :: ps) = p ++ sep ++ joinWithSep sep ps := by
  match ps with
  | [] => exact absurd rfl h
  | q :: qs => simp [joinWithSep, joinAux]

theorem splitCore_join (sep : List Char) (hsep : sep ≠ []) :
    ∀ (l : List Char) (skip : Nat) (acc : List Char),
      joinWithSep sep (splitCore sep skip acc l) = acc.reverse ++ l.drop skip
  | [], skip, acc => by cases skip <;> simp [splitCore, joinWithSep, joinAux]
  | c :: rest, skip + 1, acc => by
    rw [show splitCore sep (skip + 1) acc (c :: rest) = splitCore sep skip acc rest
        from rfl]
    rw [splitCore_join sep hsep rest skip acc]
    rfl
  | c :: rest, 0, acc => by
    rw [splitCore]
    split
    · rename_i hpre
      rw [joinWithSep_cons_of_ne_nil sep _ (splitCore_ne_nil sep _ _ _)]
      rw [splitCore_join sep hsep rest (sep.length - 1) []]
      have hp : sep <+: c :: rest := List.isPrefixOf_iff_prefix.mp hpre
      obtain ⟨t, ht⟩ := hp
      obtain ⟨m, hm⟩ : ∃ m, sep.length = m + 1 := by
        cases hl : sep.length with
        | zero => exact absurd (List.length_eq_zero.mp hl) hsep
        | succ m => exact ⟨m, rfl⟩
      have hdrop : rest.drop (sep.length - 1) = t := by
        have h0 : (sep ++ t).drop sep.length = t := by
          rw [List.drop_append_of_le_length (Nat.le_refl _)]
          simp
        rw [ht] at h0
        rw [hm] at h0 ⊢
        simpa [List.drop_succ_cons] using h0
      rw [hdrop]
      simp [← ht, List.append_assoc]
    · rw [splitCore_join sep hsep rest 0 (c :: acc)]
      simp

theorem pySplit_join (text sep : List Char) :
    joinWithSep sep (pySplit text sep) = text := by
  unfold pySplit
  split
  · simp [joinWithSep, joinAux]
  · rename_i h
    have hsep : sep ≠ [] := by simpa [List.isEmpty_iff] using h
    simpa using splitCore_join sep hsep text 0 []

theorem splitCore_chars (sep : List Char) :
    ∀ (l : List Char) (skip : Nat) (acc : List Char),
      ∀ p ∈ splitCore sep skip acc l, ∀ ch ∈ p, ch ∈ acc ∨ ch ∈ l
  | [], skip, acc => by
    intro p hp ch hch
    cases skip <;>
      simp only [splitCore, List.mem_singleton] at hp <;>
      (subst hp; exact Or.inl (List.mem_reverse.mp hch))
  | c :: rest, skip + 1, acc => by
    intro p hp ch hch
    rcases splitCore_chars sep rest skip acc p hp ch hch with h | h
    · exact Or.inl h
    · exact Or.inr (List.mem_cons_of_mem c h)
  | c :: rest, 0, acc => by
    intro p hp ch hch
    rw [splitCore] at hp
    split at hp
    · rcases List.mem_cons.mp hp with rfl | hp
      · exact Or.inl (List.mem_reverse.mp hch)
      · rcases splitCore_chars sep rest (sep.length - 1) [] p hp ch hch with h | h
        · simp at h
        · exact Or.inr (List.mem_cons_of_mem c h)
    · rcases splitCore_chars sep rest 0 (c :: acc) p hp ch hch with h | h
      · rcases List.mem_cons.mp h with rfl | h
        · exact Or.inr (List.mem_cons_self _ _)
        · exact Or.inl h
      · exact Or.inr (List.mem_cons_of_mem c h)

theorem pySplit_chars (text sep : List Char) :
    ∀ p ∈ pySplit text sep, ∀ ch ∈ p, ch ∈ text := by
  intro p hp ch hch
  unfold pySplit at hp
  split at hp
  · simp only [List.mem_singleton] at hp
    subst hp
    exact hch
  · rcases splitCore_chars sep text 0 [] p hp ch hch with h | h
    · simp at h
    · exact h

theorem mem_joinWithSep_substring (sep : List Char) :
    ∀ {parts : List (List Char)} {p : List Char}, p ∈ parts →
      p <:+: joinWithSep sep parts := by
  intro parts
  induction parts with
  | nil => intro p hp; simp at hp
  | cons q qs ih =>
    intro p hp
    rcases List.mem_cons.mp hp with rfl | hp
    · exact ⟨[], joinAux sep qs, by simp [joinWithSep]⟩
    · match qs, hp with
      | r :: rs, hp =>
        have h1 : p <:+: joinWithSep sep (r :: rs) := ih hp
        obtain ⟨s, t, hst⟩ := h1
        refine ⟨q ++ sep ++ s, t, ?_⟩
        simp only [joinWithSep, joinAux] at *
        calc q ++ sep ++ s ++ p ++ t = q ++ sep ++ (s ++ p ++ t) := by
              simp [List.append_assoc]
          _ = q ++ sep ++ (r ++ joinAux sep rs) := by rw [hst]
          _ = q ++ (sep ++ r ++ joinAux sep rs) := by simp [List.append_assoc]

end NameGuard

/-! ### Greedy overlap resolution -/

namespace NameGuardV2

open NameGuard

/-- Two candidates do not overlap (half-open interval test, as in the
source: `not (a.start < b.end and a.end > b.start)`). -/
def NoOverlap (a b : NameCandidate) : Prop :=
  ¬(a.start < b.stop ∧ b.start < a.stop)

theorem selectGreedy_subset :
    ∀ (l : List NameCandidate) (used : List (Nat × Nat)) {c : NameCandidate},
      c ∈ selectGreedy used l → c ∈ l
  | [], _, _, h => by simp [selectGreedy] at h
  | d :: ds, used, c, h => by
    rw [selectGreedy] at h
    split at h
    · exact List.mem_cons_of_mem d (selectGreedy_subset ds used h)
    · rcases List.mem_cons.mp h with rfl | h
      · exact List.mem_cons_self _ _
      · exact List.mem_cons_of_mem d (selectGreedy_subset ds _ h)

theorem selectGreedy_avoid :
    ∀ (l : List NameCandidate) (used : List (Nat × Nat)) {c : NameCandidate},
      c ∈ selectGreedy used l →
      ∀ se ∈ used, ¬(c.start < se.2 ∧ se.1 < c.stop)
  | [], _, _, h => by simp [selectGreedy] at h
  | d :: ds, used, c, h => by
    rw [selectGreedy] at h
    split at h
    · exact selectGreedy_avoid ds used h
    · rename_i hov
      rcases List.mem_cons.mp h with rfl | h
      · intro se hse hcon
        have : used.any (fun se => c.start < se.2 && se.1 < c.stop) = true :=
          List.any_eq_true.mpr ⟨se, hse, by
            simp only [Bool.and_eq_true, decide_eq_true_iff]
            exact hcon⟩
        simp [this] at hov
      · intro se hse
        exact selectGreedy_avoid ds _ h se (List.mem_append_left _ hse)

theorem selectGreedy_pairwise :
    ∀ (l : List NameCandidate) (used : List (Nat × Nat)),
      (selectGreedy used l).Pairwise NoOverlap
  | [], _ => by simp [selectGreedy]
  | d :: ds, used => by
    rw [selectGreedy]
    split
    · exact selectGreedy_pairwise ds used
    · refine List.Pairwise.cons ?_ (selectGreedy_pairwise ds _)
      intro b hb
      have := selectGreedy_avoid ds (used ++ [(d.start, d.stop)]) hb
        (d.start, d.stop) (by simp)
      intro hc
      exact this ⟨hc.2, hc.1⟩

theorem select_non_overlapping_subset {cands : List NameCandidate} {c : NameCandidate}
    (h : c ∈ select_non_overlapping cands) : c ∈ cands := by
  unfold select_non_overlapping at h
  split at h
  · simp at h
  · exact (pySortDesc_perm candLt cands).mem_iff.mp (selectGreedy_subset _ _ h)

theorem select_non_overlapping_pairwise (cands : List NameCandidate) :
    (select_non_overlapping cands).Pairwise NoOverlap := by
  unfold select_non_overlapping
  split
  · exact List.Pairwise.nil
  · exact selectGreedy_pairwise _ []

/-! ### The priority order and the replacement order -/

theorem prLt_asymm (a b : Int × Int × Int) : prLt a b = true → prLt b a = false := by
  obtain ⟨a1, a2, a3⟩ := a
  obtain ⟨b1, b2, b3⟩ := b
  simp only [prLt, Bool.or_eq_true, Bool.and_eq_true, decide_eq_true_eq, beq_iff_eq,
    Bool.or_eq_false_iff, Bool.and_eq_false_iff, decide_eq_false_iff_not, not_lt,
    beq_eq_false_iff_ne, ne_eq]
  omega

theorem prGe_trans (a b c : Int × Int × Int) :
    prLt a b = false → prLt b c = false → prLt a c = false := by
  obtain ⟨a1, a2, a3⟩ := a
  obtain ⟨b1, b2, b3⟩ := b
  obtain ⟨c1, c2, c3⟩ := c
  simp only [prLt, Bool.or_eq_false_iff, Bool.and_eq_false_iff, decide_eq_false_iff_not,
    not_lt, beq_eq_false_iff_ne, ne_eq]
  omega

theorem candLt_asymm (a b : NameCandidate) : candLt a b = true → candLt b a = false :=
  prLt_asymm _ _

theorem candGe_trans (a b c : NameCandidate) :
    candLt a b = false → candLt b c = false → candLt a c = false :=
  prGe_trans _ _ _

theorem repLt_asymm (a b : Nat × Nat × String) : repLt a b = true → repLt b a = false := by
  simp only [repLt, decide_eq_true_eq, decide_eq_false_iff_not, not_lt]
  omega

theorem repGe_trans (a b c : Nat × Nat × String) :
    repLt a b = false → repLt b c = false → repLt a c = false := by
  simp only [repLt, decide_eq_false_iff_not, not_lt]
  omega

/-- Non-overlap of replacement triples (on their spans). -/
def RepNoOv (a b : Nat × Nat × String) : Prop :=
  ¬(a.1 < b.2.1 ∧ b.1 < a.2.1)

/-- For a pairwise-disjoint set of non-empty spans sorted by descending
start, every later span ends no later than each earlier span starts. -/
theorem sorted_reps_chain (reps : List (Nat × Nat × String))
    (hnov : reps.Pairwise RepNoOv)
    (hstrict : ∀ r ∈ reps, r.1 < r.2.1) :
    (pySortDesc repLt reps).Pairwise (fun a b => b.2.1 ≤ a.1) := by
  have hsorted := pySortDesc_pairwise repLt_asymm repGe_trans reps
  have hperm := pySortDesc_perm repLt reps
  have hnov' : (pySortDesc repLt reps).Pairwise RepNoOv := by
    refine (List.Perm.pairwise_iff ?_ hperm).mpr hnov
    intro x y h hc
    exact h ⟨hc.2, hc.1⟩
  refine (hsorted.and hnov').imp_of_mem ?_
  intro a b ha hb h
  have hsa := hstrict a ((hperm.mem_iff).mp ha)
  have hsb := hstrict b ((hperm.mem_iff).mp hb)
  have h1 : ¬(a.1 < b.1) := by simpa [repLt] using h.1
  have h2 := h.2
  unfold RepNoOv at h2
  omega

/-! ### The descending-offset rewrite -/

theorem applyReplacements_cons (part : List Char) (r : Nat × Nat × String)
    (reps : List (Nat × Nat × String)) :
    applyReplacements part (r :: reps) = applyReplacements (splice part r) reps := rfl

theorem splice_append {A T : List Char} {r : Nat × Nat × String}
    (h1 : r.1 ≤ A.length) (h2 : r.2.1 ≤ A.length) :
    splice (A ++ T) r = splice A r ++ T := by
  unfold splice
  rw [List.take_append_of_le_length h1, List.drop_append_of_le_length h2]
  simp [List.append_assoc]

theorem length_splice_ge {A : List Char} {r : Nat × Nat × String}
    (h : r.1 ≤ A.length) : r.1 ≤ (splice A r).length := by
  unfold splice
  simp only [List.length_append, List.length_take]
  omega

/-- Splices confined to a prefix `A` leave an appended tail `T` intact. -/
theorem applyReplacements_append :
    ∀ (reps : List (Nat × Nat × String)) (A T : List Char),
      (∀ r ∈ reps, r.1 ≤ r.2.1 ∧ r.2.1 ≤ A.length) →
      reps.Pairwise (fun a b => b.2.1 ≤ a.1) →
      applyReplacements (A ++ T) reps = applyReplacements A reps ++ T
  | [], A, T, _, _ => rfl
  | r :: rest, A, T, hb, hchain => by
    rw [List.pairwise_cons] at hchain
    have hr := hb r (List.mem_cons_self _ _)
    rw [applyReplacements_cons, applyReplacements_cons,
      splice_append (Nat.le_trans hr.1 hr.2) hr.2]
    refine applyReplacements_append rest (splice A r) T ?_ hchain.2
    intro q hq
    refine ⟨(hb q (List.mem_cons_of_mem r hq)).1, ?_⟩
    exact Nat.le_trans (hchain.1 q hq)
      (length_splice_ge (Nat.le_trans hr.1 hr.2))

/-- The placeholder of every applied replacement survives to the final
rewritten part. -/
theorem applyReplacements_contains_ph :
    ∀ (reps : List (Nat × Nat × String)) (part : List Char) {s e : Nat} {ph : String},
      (s, e, ph) ∈ reps →
      (∀ r ∈ reps, r.1 ≤ r.2.1 ∧ r.2.1 ≤ part.length) →
      reps.Pairwise (fun a b => b.2.1 ≤ a.1) →
      ph.data <:+: applyReplacements part reps
  | [], _, _, _, _, h, _, _ => by simp at h
  | r :: rest, part, s, e, ph, hmem, hb, hchain => by
    rw [List.pairwise_cons] at hchain
    have hr := hb r (List.mem_cons_self _ _)
    have hsplit : applyReplacements part (r :: rest) =
        applyReplacements (part.take r.1) rest ++ r.2.2.data ++ part.drop r.2.1 := by
      rw [applyReplacements_cons]
      have : splice part r = part.take r.1 ++ (r.2.2.data ++ part.drop r.2.1) := by
        unfold splice; simp [List.append_assoc]
      rw [this, applyReplacements_append rest (part.take r.1) _ ?_ hchain.2]
      · simp [List.append_assoc]
      · intro q hq
        refine ⟨(hb q (List.mem_cons_of_mem r hq)).1, ?_⟩
        have := hchain.1 q hq
        simp only [List.length_take]
        omega
    rw [hsplit]
    rcases List.mem_cons.mp hmem with heq | hmem'
    · have : r.2.2 = ph := by rw [← heq]
      rw [this]
      exact ⟨applyReplacements (part.take r.1) rest, part.drop r.2.1, by
        simp [List.append_assoc]⟩
    · have hih : ph.data <:+: applyReplacements (part.take r.1) rest := by
        refine applyReplacements_contains_ph rest (part.take r.1) hmem' ?_ hchain.2
        intro q hq
        refine ⟨(hb q (List.mem_cons_of_mem r hq)).1, ?_⟩
        have := hchain.1 q hq
        simp only [List.length_take]
        omega
      obtain ⟨u, v, huv⟩ := hih
      exact ⟨u, v ++ r.2.2.data ++ part.drop r.2.1, by
        rw [← huv]; simp [List.append_assoc]⟩

/-- Key split used by the adjacency lemmas: the first replacement is
applied to the original part, and every later replacement lives in the
prefix before its start. -/
theorem applyReplacements_cons_split {r : Nat × Nat × String}
    {rest : List (Nat × Nat × String)} {part : List Char}
    (hr : r.1 ≤ r.2.1 ∧ r.2.1 ≤ part.length)
    (hb : ∀ q ∈ rest, q.1 ≤ q.2.1)
    (hchain : (∀ q ∈ rest, q.2.1 ≤ r.1) ∧
      rest.Pairwise (fun a b => b.2.1 ≤ a.1)) :
    applyReplacements part (r :: rest) =
      applyReplacements (part.take r.1) rest ++ r.2.2.data ++ part.drop r.2.1 := by
  rw [applyReplacements_cons]
  have hs : splice part r = part.take r.1 ++ (r.2.2.data ++ part.drop r.2.1) := by
    unfold splice; simp [List.append_assoc]
  rw [hs, applyReplacements_append rest (part.take r.1) _ ?_ hchain.2]
  · simp [List.append_assoc]
  · intro q hq
    refine ⟨hb q hq, ?_⟩
    have := hchain.1 q hq
    simp only [List.length_take]
    omega

/-- If the `aff.length` characters right after a replaced span are not
touched by any other replacement, they survive immediately after the
spliced-in placeholder. -/
theorem applyReplacements_adjacent_after :
    ∀ (reps : List (Nat × Nat × String)) (part aff : List Char) {s e : Nat} {ph : String},
      (s, e, ph) ∈ reps →
      (∀ r ∈ reps, r.1 < r.2.1 ∧ r.2.1 ≤ part.length) →
      reps.Pairwise (fun a b => b.2.1 ≤ a.1) →
      e + aff.length ≤ part.length →
      (part.drop e).take aff.length = aff →
      (∀ r ∈ reps, r ≠ (s, e, ph) → r.2.1 ≤ e ∨ e + aff.length ≤ r.1) →
      (ph.data ++ aff) <:+: applyReplacements part reps
  | [], _, _, _, _, _, h, _, _, _, _, _ => by simp at h
  | r :: rest, part, aff, s, e, ph, hmem, hb, hchain, haff, hslice, hdisj => by
    rw [List.pairwise_cons] at hchain
    have hr := hb r (List.mem_cons_self _ _)
    have hsplit := @applyReplacements_cons_split r rest part
      ⟨Nat.le_of_lt hr.1, hr.2⟩
      (fun q hq => Nat.le_of_lt (hb q (List.mem_cons_of_mem r hq)).1) hchain
    rw [hsplit]
    rcases List.mem_cons.mp hmem with heq | hmem'
    · -- the head is the target replacement: the affix sits right after it
      have hr2 : r.2.2 = ph := by rw [← heq]
      have hr1 : r.2.1 = e := by rw [← heq]
      have hdeco : part.drop e = aff ++ part.drop (e + aff.length) := by
        conv_lhs => rw [← List.take_append_drop aff.length (part.drop e)]
        rw [hslice, List.drop_drop]
      rw [hr2, hr1, hdeco]
      exact ⟨applyReplacements (part.take r.1) rest, part.drop (e + aff.length), by
        simp [List.append_assoc]⟩
    · -- the target is deeper in; recurse into the prefix before the head
      have htb := hb (s, e, ph) (List.mem_cons_of_mem r hmem')
      have hse : s < e := htb.1
      have hchainT : e ≤ r.1 := hchain.1 (s, e, ph) hmem'
      have hne : r ≠ (s, e, ph) := by
        intro hcon
        have h3 : r.1 = s := by rw [hcon]
        omega
      have hgap : e + aff.length ≤ r.1 := by
        rcases hdisj r (List.mem_cons_self _ _) hne with h | h
        · exact absurd h (by omega)
        · exact h
      have hr1len : r.1 ≤ part.length := Nat.le_trans (Nat.le_of_lt hr.1) hr.2
      have hih : (ph.data ++ aff) <:+: applyReplacements (part.take r.1) rest := by
        refine applyReplacements_adjacent_after rest (part.take r.1) aff hmem' ?_
          hchain.2 ?_ ?_ ?_
        · intro q hq
          refine ⟨(hb q (List.mem_cons_of_mem r hq)).1, ?_⟩
          have := hchain.1 q hq
          simp only [List.length_take]
          omega
        · simp only [List.length_take]
          omega
        · rw [List.drop_take, List.take_take]
          rw [Nat.min_eq_left (by omega)]
          exact hslice
        · intro q hq hqne
          exact hdisj q (List.mem_cons_of_mem r hq) hqne
      obtain ⟨u, v, huv⟩ := hih
      exact ⟨u, v ++ r.2.2.data ++ part.drop r.2.1, by
        rw [← huv]; simp [List.append_assoc]⟩

/-- If the `aff.length` characters right before a replaced span are not
touched by any other replacement, they survive immediately before the
spliced-in placeholder. -/
theorem applyReplacements_adjacent_before :
    ∀ (reps : List (Nat × Nat × String)) (part aff : List Char) {s e : Nat} {ph : String},
      (s, e, ph) ∈ reps →
      (∀ r ∈ reps, r.1 < r.2.1 ∧ r.2.1 ≤ part.length) →
      reps.Pairwise (fun a b => b.2.1 ≤ a.1) →
      aff.length ≤ s →
      (part.drop (s - aff.length)).take aff.length = aff →
      (∀ r ∈ reps, r ≠ (s, e, ph) → r.2.1 ≤ s - aff.length ∨ s ≤ r.1) →
      (aff ++ ph.data) <:+: applyReplacements part reps
  | [], _, _, _, _, _, h, _, _, _, _, _ => by simp at h
  | r :: rest, part, aff, s, e, ph, hmem, hb, hchain, haff, hslice, hdisj => by
    rw [List.pairwise_cons] at hchain
    have hr := hb r (List.mem_cons_self _ _)
    have hsplit := @applyReplacements_cons_split r rest part
      ⟨Nat.le_of_lt hr.1, hr.2⟩
      (fun q hq => Nat.le_of_lt (hb q (List.mem_cons_of_mem r hq)).1) hchain
    rw [hsplit]
    rcases List.mem_cons.mp hmem with heq | hmem'
    · -- the head is the target: the prefix before its start ends with the affix
      have hr2 : r.2.2 = ph := by rw [← heq]
      have hr0 : r.1 = s := by rw [← heq]
      have hrest : ∀ q ∈ rest, q.1 < q.2.1 ∧ q.2.1 ≤ s - aff.length := by
        intro q hq
        have hq1 := (hb q (List.mem_cons_of_mem r hq)).1
        have hq2 : q.2.1 ≤ s := hr0 ▸ hchain.1 q hq
        have hqne : q ≠ (s, e, ph) := by
          intro hcon
          have : q.1 = s := by rw [hcon]
          omega
        rcases hdisj q (List.mem_cons_of_mem r hq) hqne with h | h
        · exact ⟨hq1, h⟩
        · exact absurd h (by omega)
      have hslen : s ≤ part.length := by
        have := hr.2
        omega
      have hfac : applyReplacements (part.take r.1) rest =
          applyReplacements (part.take (s - aff.length)) rest ++ aff := by
        have hdec : part.take s = part.take (s - aff.length) ++ aff := by
          conv_lhs => rw [← List.take_append_drop (s - aff.length) (part.take s)]
          congr 1
          · rw [List.take_take, Nat.min_eq_left (by omega)]
          · rw [List.drop_take]
            have : s - (s - aff.length) = aff.length := by omega
            rw [this]
            exact hslice
        rw [hr0, hdec]
        rw [applyReplacements_append rest (part.take (s - aff.length)) aff ?_ hchain.2]
        intro q hq
        have := hrest q hq
        simp only [List.length_take]
        omega
      rw [hr2, hfac]
      exact ⟨applyReplacements (part.take (s - aff.length)) rest, part.drop r.2.1, by
        simp [List.append_assoc]⟩
    · -- the target is deeper in; recurse into the prefix before the head
      have htb := hb (s, e, ph) (List.mem_cons_of_mem r hmem')
      have hse : s < e := htb.1
      have hchainT : e ≤ r.1 := hchain.1 (s, e, ph) hmem'
      have hr1len : r.1 ≤ part.length := Nat.le_trans (Nat.le_of_lt hr.1) hr.2
      have hih : (aff ++ ph.data) <:+: applyReplacements (part.take r.1) rest := by
        refine applyReplacements_adjacent_before rest (part.take r.1) aff hmem' ?_
          hchain.2 haff ?_ ?_
        · intro q hq
          refine ⟨(hb q (List.mem_cons_of_mem r hq)).1, ?_⟩
          have := hchain.1 q hq
          simp only [List.length_take]
          omega
        · rw [List.drop_take, List.take_take]
          rw [Nat.min_eq_left (by omega)]
          exact hslice
        · intro q hq hqne
          exact hdisj q (List.mem_cons_of_mem r hq) hqne
      obtain ⟨u, v, huv⟩ := hih
      exact ⟨u, v ++ r.2.2.data ++ part.drop r.2.1, by
        rw [← huv]; simp [List.append_assoc]⟩

/-! ### Invariants of candidate extraction -/

/-- Every candidate's offsets are in range, its span is non-empty and
slices to exactly its name, and an affix slices to exactly the affix text
just after (suffix) / just before (prefix) the name span. -/
def spanOK (part : List Char) (c : NameCandidate) : Prop :=
  c.start < c.stop ∧ c.stop ≤ part.length ∧
  c.stop - c.start = c.name.length ∧
  (part.drop c.start).take c.name.length = c.name.data ∧
  (c.affix_type = "suffix" → c.stop + c.affix.length ≤ part.length ∧
    (part.drop c.stop).take c.affix.length = c.affix.data) ∧
  (c.affix_type = "prefix" → c.affix.length ≤ c.start ∧
    (part.drop (c.start - c.affix.length)).take c.affix.length = c.affix.data)

/-- Every plain (non-affixed) candidate passed the boundary filter and its
name is 1-3 characters long. -/
def boundaryOK (part : List Char) (c : NameCandidate) : Prop :=
  c.has_affix = false →
    is_at_boundary part c.start c.stop = true ∧
    1 ≤ c.name.length ∧ c.name.length ≤ 3

theorem suffix_word_spec {cfg : NameGuardConfig} {word n s : String}
    (h : extract_from_suffix_word cfg word = some (n, s)) :
    ∃ k, n.data = word.data.take k ∧ s.data = word.data.drop k ∧
      1 ≤ k ∧ k ≤ word.data.length ∧ n.length = k := by
  unfold extract_from_suffix_word at h
  split at h
  · exact absurd h (by simp)
  · split at h
    · rename_i k hfind
      obtain ⟨hn, hs⟩ : n = (⟨word.data.take k⟩ : String) ∧ s = (⟨word.data.drop k⟩ : String) := by
        have := h
        simp only [Option.some.injEq, Prod.mk.injEq] at this
        exact ⟨this.1.symm, this.2.symm⟩
      have hmem := List.mem_of_find?_eq_some hfind
      rw [List.mem_reverse, List.mem_map] at hmem
      obtain ⟨j, hj, hjk⟩ := hmem
      rw [List.mem_range] at hj
      have hk1 : 1 ≤ k := by omega
      have hkw : k ≤ word.data.length := by
        have h1 : j + 1 ≤ min 3 (word.data.takeWhile isCJK).length := hj
        have h2 : (word.data.takeWhile isCJK).length ≤ word.data.length :=
          (List.takeWhile_prefix isCJK).length_le
        omega
      refine ⟨k, by rw [hn], by rw [hs], hk1, hkw, ?_⟩
      rw [hn]
      show (word.data.take k).length = k
      simp only [List.length_take]
      omega
    · exact absurd h (by simp)

theorem prefix_word_spec {cfg : NameGuardConfig} {word n p : String}
    (h : extract_from_prefix_word cfg word = some (n, p)) :
    p.data ++ n.data = word.data ∧ 1 ≤ n.length ∧
      p.length ≤ word.data.length ∧ n.length = word.data.length - p.length := by
  unfold extract_from_prefix_word at h
  split at h
  · exact absurd h (by simp)
  · split at h
    · rename_i q hfind
      obtain ⟨hn, hp⟩ : n = (⟨word.data.drop q.length⟩ : String) ∧ p = q := by
        have := h
        simp only [Option.some.injEq, Prod.mk.injEq] at this
        exact ⟨this.1.symm, this.2.symm⟩
      have hpred := List.find?_some hfind
      simp only [Bool.and_eq_true, decide_eq_true_eq] at hpred
      have hpre : q.data <+: word.data := List.isPrefixOf_iff_prefix.mp hpred.1.1.1
      have hqlen : q.data.length ≤ word.data.length := hpre.length_le
      have htake : word.data.take q.data.length = q.data := (List.prefix_iff_eq_take.mp hpre).symm
      have happ : q.data ++ word.data.drop q.length = word.data := by
        show q.data ++ word.data.drop q.data.length = word.data
        conv_rhs => rw [← List.take_append_drop q.data.length word.data]
        rw [htake]
      have hnlen : (word.data.drop q.length).length = word.data.length - q.length := by
        simp [List.length_drop]
      constructor
      · rw [hn, hp]; exact happ
      constructor
      · rw [hn]
        show 1 ≤ (word.data.drop q.length).length
        have := hpred.1.1.2
        omega
      constructor
      · rw [hp]; exact hqlen
      · rw [hn, hp]
        show (word.data.drop q.length).length = word.data.length - q.length
        exact hnlen
    · exact absurd h (by simp)

/-- Transport a sub-span slice of a CJK run to a slice of the whole part. -/
theorem word_slice {part seg : List Char} {seg_start : Nat} (i len : Nat)
    (hslice : (part.drop seg_start).take seg.length = seg)
    (hi : i + len ≤ seg.length) :
    (part.drop (seg_start + i)).take len = (seg.drop i).take len := by
  have hdec : part.drop seg_start = seg ++ part.drop (seg_start + seg.length) := by
    conv_lhs => rw [← List.take_append_drop seg.length (part.drop seg_start)]
    rw [hslice, List.drop_drop]
  have h1 : part.drop (seg_start + i) = (part.drop seg_start).drop i := by
    rw [List.drop_drop]
  rw [h1, hdec, List.drop_append_of_le_length (by omega),
    List.take_append_of_le_length (by simp [List.length_drop]; omega)]

/-- Dropping into a take: `((seg.drop i).take len).drop k`. -/
theorem slice_shift (seg : List Char) (i len k : Nat) :
    ((seg.drop i).take len).drop k = (seg.drop (i + k)).take (len - k) := by
  rw [List.drop_take, List.drop_drop]

theorem cjkRunsAux_facts :
    ∀ (l : List Char) (skip i : Nat) (part : List Char), part.drop i = l →
      ∀ r ∈ cjkRunsAux skip i l,
        (part.drop r.1).take r.2.length = r.2 ∧ r.1 + r.2.length ≤ part.length
  | [], skip, _, _, _, r, hr => by cases skip <;> simp [cjkRunsAux] at hr
  | c :: rest, skip + 1, i, part, hpart, r, hr => by
    have hdrop1 : part.drop (i + 1) = rest := by
      have h0 : part.drop (i + 1) = (part.drop i).drop 1 := by rw [List.drop_drop]
      rw [h0, hpart]
      rfl
    exact cjkRunsAux_facts rest skip (i + 1) part hdrop1 r hr
  | c :: rest, 0, i, part, hpart, r, hr => by
    have hplen : i + 1 + rest.length ≤ part.length := by
      have := congrArg List.length hpart
      simp only [List.length_drop, List.length_cons] at this
      omega
    have hdrop1 : part.drop (i + 1) = rest := by
      have h0 : part.drop (i + 1) = (part.drop i).drop 1 := by rw [List.drop_drop]
      rw [h0, hpart]
      rfl
    rw [cjkRunsAux] at hr
    split at hr
    · rcases List.mem_cons.mp hr with rfl | hr'
      · constructor
        · rw [hpart]
          have htw : rest.take (rest.takeWhile isCJK).length = rest.takeWhile isCJK :=
            (List.prefix_iff_eq_take.mp (List.takeWhile_prefix isCJK)).symm
          simp only [List.length_cons, List.take_succ_cons, htw]
        · have := (List.takeWhile_prefix (l := rest) isCJK).length_le
          simp only [List.length_cons]
          omega
      · exact cjkRunsAux_facts rest (rest.takeWhile isCJK).length (i + 1) part hdrop1 r hr'
    · exact cjkRunsAux_facts rest 0 (i + 1) part hdrop1 r hr

theorem cjkRuns_facts {part : List Char} {r : Nat × List Char} (hr : r ∈ cjkRuns part) :
    (part.drop r.1).take r.2.length = r.2 ∧ r.1 + r.2.length ≤ part.length :=
  cjkRunsAux_facts part 0 0 part (by simp) r hr

theorem cjkRunsAux_nil_of_no_cjk :
    ∀ (l : List Char) (skip i : Nat), (∀ c ∈ l, isCJK c = false) →
      cjkRunsAux skip i l = []
  | [], skip, _, _ => by cases skip <;> rfl
  | c :: rest, skip + 1, i, h =>
    cjkRunsAux_nil_of_no_cjk rest skip (i + 1)
      (fun x hx => h x (List.mem_cons_of_mem c hx))
  | c :: rest, 0, i, h => by
    rw [cjkRunsAux]
    rw [h c (List.mem_cons_self _ _)]
    simp only [Bool.false_eq_true, if_false]
    exact cjkRunsAux_nil_of_no_cjk rest 0 (i + 1)
      (fun x hx => h x (List.mem_cons_of_mem c hx))

theorem mem_spanPairs {n len i : Nat} (h : (len, i) ∈ spanPairs n) :
    1 ≤ len ∧ i + len ≤ n := by
  unfold spanPairs spanLengths at h
  rw [List.mem_flatMap] at h
  obtain ⟨L, hL, hli⟩ := h
  rw [List.mem_reverse, List.mem_map] at hL
  obtain ⟨j, hj, hjL⟩ := hL
  rw [List.mem_range] at hj
  rw [List.mem_map] at hli
  obtain ⟨i', hi', hii⟩ := hli
  rw [List.mem_range] at hi'
  injection hii with h1 h2
  subst h1
  subst h2
  omega

theorem processSpan_OK (cfg : NameGuardConfig) (part : List Char) (ctx : String)
    (seg_start : Nat) (seg : List Char) (acc : List NameCandidate × List (String × Nat))
    (len i : Nat)
    (hslice : (part.drop seg_start).take seg.length = seg)
    (hlen : seg_start + seg.length ≤ part.length)
    (hlen1 : 1 ≤ len) (hilen : i + len ≤ seg.length)
    (hacc : ∀ c ∈ acc.1, spanOK part c ∧ boundaryOK part c) :
    ∀ c ∈ (processSpan cfg part ctx seg_start seg acc (len, i)).1,
      spanOK part c ∧ boundaryOK part c := by
  have hseglen : seg.length ≤ part.length := by omega
  have hwdata : (⟨(seg.drop i).take len⟩ : String).data = (seg.drop i).take len := rfl
  have hwlen : (⟨(seg.drop i).take len⟩ : String).data.length = len := by
    simp only [List.length_take, List.length_drop]
    omega
  simp only [processSpan]
  rcases hsfx : extract_from_suffix_word cfg ⟨(seg.drop i).take len⟩ with _ | ⟨n, s⟩
  case some =>
    -- suffix decomposition accepted or rejected
    obtain ⟨k, hn, hs, hk1, hkw, hnk⟩ := suffix_word_spec hsfx
    rw [hwdata] at hn hs
    rw [hwlen] at hkw
    simp only
    split
    · intro c hc
      rcases List.mem_append.mp hc with hc | hc
      · exact hacc c hc
      · rw [List.mem_singleton] at hc
        subst hc
        have hslen : s.length = len - k := by
          show s.data.length = len - k
          rw [hs]
          simp only [List.length_drop, List.length_take, List.length_drop]
          omega
        refine ⟨⟨?_, ?_, ?_, ?_, ?_, ?_⟩, ?_⟩
        · show seg_start + i < seg_start + i + n.length
          omega
        · show seg_start + i + n.length ≤ part.length
          omega
        · show seg_start + i + n.length - (seg_start + i) = n.length
          omega
        · show (part.drop (seg_start + i)).take n.length = n.data
          rw [hnk, hn, word_slice i k hslice (by omega), List.take_take,
            Nat.min_eq_left (by omega)]
        · intro _
          constructor
          · show seg_start + i + n.length + s.length ≤ part.length
            omega
          · show (part.drop (seg_start + i + n.length)).take s.length = s.data
            rw [hnk, hslen, hs, slice_shift, Nat.add_assoc]
            exact word_slice (i + k) (len - k) hslice (by omega)
        · intro habs
          simp at habs
        · intro habs
          simp at habs
    · exact fun c hc => hacc c hc
  case none =>
  rcases hpfx : extract_from_prefix_word cfg ⟨(seg.drop i).take len⟩ with _ | ⟨n, p⟩
  case some =>
    obtain ⟨happ, hn1, hpw, hnl⟩ := prefix_word_spec hpfx
    rw [hwdata] at happ
    rw [hwlen] at hpw hnl
    simp only
    split
    · intro c hc
      rcases List.mem_append.mp hc with hc | hc
      · exact hacc c hc
      · rw [List.mem_singleton] at hc
        subst hc
        have hpdl : p.data.length = p.length := rfl
        have hnd : n.data = (seg.drop (i + p.length)).take (len - p.length) := by
          have h1 : n.data = ((seg.drop i).take len).drop p.data.length := by
            rw [← happ, List.drop_left]
          rw [h1, hpdl, slice_shift]
        have hpd : p.data = (seg.drop i).take p.length := by
          have h1 : p.data = ((seg.drop i).take len).take p.data.length := by
            rw [← happ, List.take_left]
          rw [h1, hpdl, List.take_take, Nat.min_eq_left (by omega)]
        refine ⟨⟨?_, ?_, ?_, ?_, ?_, ?_⟩, ?_⟩
        · show seg_start + i + p.length < seg_start + i + len
          omega
        · show seg_start + i + len ≤ part.length
          omega
        · show seg_start + i + len - (seg_start + i + p.length) = n.length
          omega
        · show (part.drop (seg_start + i + p.length)).take n.length = n.data
          rw [hnl, hnd, ← word_slice (i + p.length) (len - p.length) hslice (by omega),
            ← Nat.add_assoc]
        · intro habs
          simp at habs
        · intro _
          constructor
          · show p.length ≤ seg_start + i + p.length
            omega
          · show (part.drop (seg_start + i + p.length - p.length)).take p.length = p.data
            have harg : seg_start + i + p.length - p.length = seg_start + i := by omega
            rw [harg, hpd, word_slice i p.length hslice (by omega)]
        · intro habs
          simp at habs
    · exact fun c hc => hacc c hc
  case none =>
    simp only
    split
    · split
      · rename_i hlen3 hbound
        split
        · intro c hc
          rcases List.mem_append.mp hc with hc | hc
          · exact hacc c hc
          · rw [List.mem_singleton] at hc
            subst hc
            refine ⟨⟨?_, ?_, ?_, ?_, ?_, ?_⟩, ?_⟩
            · show seg_start + i < seg_start + i + len
              omega
            · show seg_start + i + len ≤ part.length
              omega
            · show seg_start + i + len - (seg_start + i) =
                (⟨(seg.drop i).take len⟩ : String).length
              show _ = (⟨(seg.drop i).take len⟩ : String).data.length
              rw [hwlen]
              omega
            · show (part.drop (seg_start + i)).take
                (⟨(seg.drop i).take len⟩ : String).length = (seg.drop i).take len
              show (part.drop (seg_start + i)).take
                (⟨(seg.drop i).take len⟩ : String).data.length = _
              rw [hwlen, word_slice i len hslice (by omega)]
            · intro habs
              exact absurd habs (by simp only []; decide)
            · intro habs
              exact absurd habs (by simp only []; decide)
            · intro _
              refine ⟨hbound, ?_, ?_⟩
              · show 1 ≤ (⟨(seg.drop i).take len⟩ : String).data.length
                omega
              · show (⟨(seg.drop i).take len⟩ : String).data.length ≤ 3
                rw [hwlen]
                simp only [Bool.and_eq_true, decide_eq_true_eq] at hlen3
                exact hlen3.2
        · exact fun c hc => hacc c hc
      · exact fun c hc => hacc c hc
    · exact fun c hc => hacc c hc

/-- Every extracted candidate satisfies the span and boundary invariants. -/
theorem extract_candidates_OK (cfg : NameGuardConfig) (part : List Char) (ctx : String)
    (b : Bool) (cache : List (String × Nat)) :
    ∀ c ∈ (extract_candidates_from_part cfg part ctx b cache).1,
      spanOK part c ∧ boundaryOK part c := by
  unfold extract_candidates_from_part
  refine foldl_inv
    (P := fun acc : List NameCandidate × List (String × Nat) =>
      ∀ c ∈ acc.1, spanOK part c ∧ boundaryOK part c)
    (cjkRuns part) ([], cache) (by intro c hc; simp at hc) ?_
  intro acc run hrun hacc
  unfold processRun
  have hfacts := cjkRuns_facts hrun
  refine foldl_inv
    (P := fun acc : List NameCandidate × List (String × Nat) =>
      ∀ c ∈ acc.1, spanOK part c ∧ boundaryOK part c)
    (spanPairs run.2.length) acc hacc ?_
  intro acc' li hli hacc'
  obtain ⟨len, i⟩ := li
  have hmem := mem_spanPairs hli
  exact processSpan_OK cfg part ctx run.1 run.2 acc' len i hfacts.1 hfacts.2
    hmem.1 hmem.2 hacc'

/-- Every selected candidate satisfies the span and boundary invariants. -/
theorem selected_OK (cfg : NameGuardConfig) (part : List Char) (ctx : String)
    (b : Bool) (cache : List (String × Nat)) :
    ∀ c ∈ select_non_overlapping (extract_candidates_from_part cfg part ctx b cache).1,
      spanOK part c ∧ boundaryOK part c :=
  fun c hc => extract_candidates_OK cfg part ctx b cache c
    (select_non_overlapping_subset hc)

/-! ### Placeholder assignment -/

theorem assignPlaceholders_reps_spans (cfg : NameGuardConfig) :
    ∀ (sel : List NameCandidate) (nm ntp : List (String × String)) (idx : Nat)
      (an : List String),
      (assignPlaceholders cfg sel nm ntp idx an).reps.map (fun r => (r.1, r.2.1)) =
        sel.map (fun c => (c.start, c.stop))
  | [], _, _, _, _ => rfl
  | c :: cs, nm, ntp, idx, an => by
    rw [assignPlaceholders]
    split
    · simp only [List.map_cons]
      rw [assignPlaceholders_reps_spans cfg cs nm ntp idx an]
    · simp only [List.map_cons]
      rw [assignPlaceholders_reps_spans cfg cs _ _ _ _]

theorem assignPlaceholders_mem_reps (cfg : NameGuardConfig) :
    ∀ (sel : List NameCandidate) (nm ntp : List (String × String)) (idx : Nat)
      (an : List String) (c : NameCandidate), c ∈ sel →
      ∃ ph, (c.start, c.stop, ph) ∈ (assignPlaceholders cfg sel nm ntp idx an).reps
  | [], _, _, _, _, _, hc => by simp at hc
  | d :: cs, nm, ntp, idx, an, c, hc => by
    rw [assignPlaceholders]
    split
    · rename_i ph hph
      rcases List.mem_cons.mp hc with rfl | hc'
      · exact ⟨ph, by simp⟩
      · obtain ⟨ph', hmem⟩ := assignPlaceholders_mem_reps cfg cs nm ntp idx an c hc'
        exact ⟨ph', by simp only; exact List.mem_cons_of_mem _ hmem⟩
    · rcases List.mem_cons.mp hc with rfl | hc'
      · exact ⟨formatPlaceholder cfg.name_placeholder_format idx, by simp⟩
      · obtain ⟨ph', hmem⟩ := assignPlaceholders_mem_reps cfg cs _ _ _ _ c hc'
        exact ⟨ph', by simp only; exact List.mem_cons_of_mem _ hmem⟩

theorem assignPlaceholders_nm_src (cfg : NameGuardConfig) :
    ∀ (sel : List NameCandidate) (nm ntp : List (String × String)) (idx : Nat)
      (an : List String) (pn : String × String),
      pn ∈ (assignPlaceholders cfg sel nm ntp idx an).name_map →
      pn ∈ nm ∨ ∃ se : Nat × Nat,
        (se.1, se.2, pn.1) ∈ (assignPlaceholders cfg sel nm ntp idx an).reps
  | [], _, _, _, _, _, h => Or.inl h
  | c :: cs, nm, ntp, idx, an, pn, h => by
    rw [assignPlaceholders] at h ⊢
    split at h
    · rename_i ph hph
      simp only at h ⊢
      rcases assignPlaceholders_nm_src cfg cs nm ntp idx an pn h with h' | ⟨se, hse⟩
      · exact Or.inl h'
      · exact Or.inr ⟨se, List.mem_cons_of_mem _ hse⟩
    · simp only at h ⊢
      rcases assignPlaceholders_nm_src cfg cs _ _ _ _ pn h with h' | ⟨se, hse⟩
      · rcases List.mem_append.mp h' with h'' | h''
        · exact Or.inl h''
        · rw [List.mem_singleton] at h''
          subst h''
          exact Or.inr ⟨(c.start, c.stop), List.mem_cons_self _ _⟩
      · exact Or.inr ⟨se, List.mem_cons_of_mem _ hse⟩

/-- The dedup invariant of the name/placeholder maps. -/
def MapInv (nm ntp : List (String × String)) (an : List String) : Prop :=
  an.Nodup ∧ nm.map Prod.snd = an ∧ nm.length = an.length ∧ ntp.map Prod.fst = an

theorem assignPlaceholders_MapInv (cfg : NameGuardConfig) :
    ∀ (sel : List NameCandidate) (nm ntp : List (String × String)) (idx : Nat)
      (an : List String), MapInv nm ntp an →
      MapInv (assignPlaceholders cfg sel nm ntp idx an).name_map
        (assignPlaceholders cfg sel nm ntp idx an).name_to_placeholder
        (assignPlaceholders cfg sel nm ntp idx an).all_names
  | [], _, _, _, _, h => h
  | c :: cs, nm, ntp, idx, an, h => by
    rw [assignPlaceholders]
    split
    · exact assignPlaceholders_MapInv cfg cs nm ntp idx an h
    · rename_i hph
      refine assignPlaceholders_MapInv cfg cs _ _ _ _ ?_
      obtain ⟨h1, h2, h3, h4⟩ := h
      have hnew : c.name ∉ an := by
        rw [← h4]
        intro hmem
        rw [List.mem_map] at hmem
        obtain ⟨q, hq, hqname⟩ := hmem
        have := (List.lookup_eq_none_iff.mp hph) q hq
        rw [hqname] at this
        simp at this
      refine ⟨?_, ?_, ?_, ?_⟩
      · rw [List.nodup_append]
        exact ⟨h1, List.nodup_singleton _, by simpa using hnew⟩
      · rw [List.map_append, h2]
        rfl
      · simp only [List.length_append, h3]
        rfl
      · rw [List.map_append, h4]
        rfl

/-! ### Per-part replacement facts and the main loop invariants -/

theorem reps_facts (cfg : NameGuardConfig) (part : List Char) (ctx : String) (b : Bool)
    (cache : List (String × Nat)) (nm ntp : List (String × String)) (idx : Nat)
    (an : List String) :
    (∀ r ∈ (assignPlaceholders cfg
        (select_non_overlapping (extract_candidates_from_part cfg part ctx b cache).1)
        nm ntp idx an).reps, r.1 < r.2.1 ∧ r.2.1 ≤ part.length) ∧
    (assignPlaceholders cfg
        (select_non_overlapping (extract_candidates_from_part cfg part ctx b cache).1)
        nm ntp idx an).reps.Pairwise RepNoOv := by
  have hspans := assignPlaceholders_reps_spans cfg
    (select_non_overlapping (extract_candidates_from_part cfg part ctx b cache).1)
    nm ntp idx an
  constructor
  · intro r hr
    have hmem : (r.1, r.2.1) ∈ (assignPlaceholders cfg
        (select_non_overlapping (extract_candidates_from_part cfg part ctx b cache).1)
        nm ntp idx an).reps.map (fun r => (r.1, r.2.1)) :=
      List.mem_map_of_mem _ hr
    rw [hspans, List.mem_map] at hmem
    obtain ⟨c, hc, hcr⟩ := hmem
    have hok := (selected_OK cfg part ctx b cache c hc).1
    injection hcr with hcr1 hcr2
    rw [← hcr1, ← hcr2]
    exact ⟨hok.1, hok.2.1⟩
  · have hsel := select_non_overlapping_pairwise
      (extract_candidates_from_part cfg part ctx b cache).1
    have hmap : ((select_non_overlapping
        (extract_candidates_from_part cfg part ctx b cache).1).map
          (fun c => (c.start, c.stop))).Pairwise
        (fun a b : Nat × Nat => ¬(a.1 < b.2 ∧ b.1 < a.2)) := by
      rw [List.pairwise_map]
      exact hsel
    rw [← hspans, List.pairwise_map] at hmap
    exact hmap

/-- All placeholders recorded in `name_map` occur in some rewritten part. -/
def PhInv (st : LoopState) : Prop :=
  ∀ pn ∈ st.name_map, ∃ rp ∈ st.replaced_parts, pn.1.data <:+: rp

/-- The dedup invariant, lifted to the loop state. -/
def StInv (st : LoopState) : Prop :=
  MapInv st.name_map st.name_to_placeholder st.all_names

theorem processPart_StInv (cfg : NameGuardConfig) (text : String) (st : LoopState)
    (ip : Nat × List Char) (h : StInv st) : StInv (processPart cfg text st ip) :=
  assignPlaceholders_MapInv cfg _ _ _ _ _ h

theorem processPart_PhInv (cfg : NameGuardConfig) (text : String) (st : LoopState)
    (ip : Nat × List Char) (h : PhInv st) : PhInv (processPart cfg text st ip) := by
  intro pn hpn
  have hfacts := reps_facts cfg ip.2 text (ip.1 == 0) st.occurrence_cache
    st.name_map st.name_to_placeholder st.name_index st.all_names
  rcases assignPlaceholders_nm_src cfg _ _ _ _ _ pn hpn with hold | ⟨se, hse⟩
  · obtain ⟨rp, hrp, hinf⟩ := h pn hold
    exact ⟨rp, List.mem_append_left _ hrp, hinf⟩
  · refine ⟨applyReplacements ip.2 (pySortDesc repLt (assignPlaceholders cfg
      (select_non_overlapping (extract_candidates_from_part cfg ip.2 text (ip.1 == 0)
        st.occurrence_cache).1)
      st.name_map st.name_to_placeholder st.name_index st.all_names).reps),
      List.mem_append_right _ (List.mem_singleton_self _), ?_⟩
    refine applyReplacements_contains_ph _ ip.2
      ((pySortDesc_perm repLt _).mem_iff.mpr hse) ?_ ?_
    · intro r hr
      have := hfacts.1 r ((pySortDesc_perm repLt _).mem_iff.mp hr)
      exact ⟨Nat.le_of_lt this.1, this.2⟩
    · exact sorted_reps_chain _ hfacts.2 (fun r hr => (hfacts.1 r hr).1)

theorem foldl_StInv (cfg : NameGuardConfig) (text : String)
    (l : List (Nat × List Char)) (st : LoopState) (h : StInv st) :
    StInv (l.foldl (processPart cfg text) st) :=
  foldl_inv l st h (fun b a _ hb => processPart_StInv cfg text b a hb)

theorem foldl_PhInv (cfg : NameGuardConfig) (text : String)
    (l : List (Nat × List Char)) (st : LoopState) (h : PhInv st) :
    PhInv (l.foldl (processPart cfg text) st) :=
  foldl_inv l st h (fun b a _ hb => processPart_PhInv cfg text b a hb)

/-! ### Degenerate (CJK-free) inputs -/

theorem extract_candidates_no_cjk (cfg : NameGuardConfig) (part : List Char)
    (ctx : String) (b : Bool) (cache : List (String × Nat))
    (h : ∀ ch ∈ part, isCJK ch = false) :
    extract_candidates_from_part cfg part ctx b cache = ([], cache) := by
  unfold extract_candidates_from_part cjkRuns
  rw [cjkRunsAux_nil_of_no_cjk part 0 0 h]
  rfl

theorem processPart_no_cjk (cfg : NameGuardConfig) (text : String) (st : LoopState)
    (i : Nat) (part : List Char) (h : ∀ ch ∈ part, isCJK ch = false) :
    processPart cfg text st (i, part) =
      { st with replaced_parts := st.replaced_parts ++ [part] } := by
  unfold processPart
  rw [show ((i, part) : Nat × List Char).2 = part from rfl]
  rw [extract_candidates_no_cjk cfg part text _ st.occurrence_cache h]
  rfl

theorem foldl_no_cjk (cfg : NameGuardConfig) (text : String) :
    ∀ (l : List (Nat × List Char)) (st : LoopState),
      (∀ pr ∈ l, ∀ ch ∈ pr.2, isCJK ch = false) →
      l.foldl (processPart cfg text) st =
        { st with replaced_parts := st.replaced_parts ++ l.map Prod.snd }
  | [], st, _ => by simp
  | ip :: l, st, h => by
    obtain ⟨i, part⟩ := ip
    rw [List.foldl_cons,
      processPart_no_cjk cfg text st i part (h (i, part) (List.mem_cons_self _ _)),
      foldl_no_cjk cfg text l _ (fun pr hpr => h pr (List.mem_cons_of_mem _ hpr))]
    simp [List.append_assoc]

/-! ### Order of consideration during overlap resolution -/

theorem sortCandidates_pairwise (cands : List NameCandidate) :
    (pySortDesc candLt cands).Pairwise (fun a b => candLt a b = false) :=
  pySortDesc_pairwise candLt_asymm candGe_trans cands

theorem priority_order_facts {a b : NameCandidate} (h : candLt a b = false) :
    (b.has_affix = true → a.has_affix = true) ∧
    (a.has_affix = b.has_affix → a.score = b.score → a.start ≤ b.start) := by
  unfold candLt prLt NameCandidate.priority at h
  simp only [Bool.or_eq_false_iff, Bool.and_eq_false_iff, decide_eq_false_iff_not,
    not_lt, beq_eq_false_iff_ne, ne_eq] at h
  constructor
  · intro hb1
    by_contra ha1
    rw [Bool.not_eq_true] at ha1
    rw [ha1, hb1] at h
    simp at h
  · intro heq hsc
    rw [heq] at h
    simp at h
    omega

/-! ### Affix adjacency for selected candidates -/

theorem repNoOv_symm : ∀ {x y : Nat × Nat × String}, RepNoOv x y → RepNoOv y x := by
  intro x y h hc
  exact h ⟨hc.2, hc.1⟩

theorem selected_affix_adjacent (cfg : NameGuardConfig) (part : List Char) (ctx : String)
    (b : Bool) (cache : List (String × Nat)) (nm ntp : List (String × String))
    (idx : Nat) (an : List String) (c : NameCandidate)
    (hc : c ∈ select_non_overlapping (extract_candidates_from_part cfg part ctx b cache).1)
    (hdisjS : c.affix_type = "suffix" →
      ∀ d ∈ select_non_overlapping (extract_candidates_from_part cfg part ctx b cache).1,
        (d.start, d.stop) ≠ (c.start, c.stop) →
        d.stop ≤ c.stop ∨ c.stop + c.affix.length ≤ d.start)
    (hdisjP : c.affix_type = "prefix" →
      ∀ d ∈ select_non_overlapping (extract_candidates_from_part cfg part ctx b cache).1,
        (d.start, d.stop) ≠ (c.start, c.stop) →
        d.stop ≤ c.start - c.affix.length ∨ c.start ≤ d.start) :
    ∃ ph, (c.start, c.stop, ph) ∈ (assignPlaceholders cfg
        (select_non_overlapping (extract_candidates_from_part cfg part ctx b cache).1)
        nm ntp idx an).reps ∧
      (c.affix_type = "suffix" → (ph.data ++ c.affix.data) <:+:
        applyReplacements part (pySortDesc repLt (assignPlaceholders cfg
          (select_non_overlapping (extract_candidates_from_part cfg part ctx b cache).1)
          nm ntp idx an).reps)) ∧
      (c.affix_type = "prefix" → (c.affix.data ++ ph.data) <:+:
        applyReplacements part (pySortDesc repLt (assignPlaceholders cfg
          (select_non_overlapping (extract_candidates_from_part cfg part ctx b cache).1)
          nm ntp idx an).reps)) := by
  obtain ⟨ph, hph⟩ := assignPlaceholders_mem_reps cfg _ nm ntp idx an c hc
  have hfacts := reps_facts cfg part ctx b cache nm ntp idx an
  have hspans := assignPlaceholders_reps_spans cfg
    (select_non_overlapping (extract_candidates_from_part cfg part ctx b cache).1)
    nm ntp idx an
  have hperm := pySortDesc_perm repLt (assignPlaceholders cfg
    (select_non_overlapping (extract_candidates_from_part cfg part ctx b cache).1)
    nm ntp idx an).reps
  have hdmem := hperm.mem_iff.mpr hph
  have hbounds : ∀ r ∈ pySortDesc repLt (assignPlaceholders cfg
      (select_non_overlapping (extract_candidates_from_part cfg part ctx b cache).1)
      nm ntp idx an).reps, r.1 < r.2.1 ∧ r.2.1 ≤ part.length :=
    fun r hr => hfacts.1 r (hperm.mem_iff.mp hr)
  have hchain := sorted_reps_chain _ hfacts.2 (fun r hr => (hfacts.1 r hr).1)
  have hdescnov := (hperm.pairwise_iff repNoOv_symm).mpr hfacts.2
  obtain ⟨hlt, hle, hdiff, hnslice, hsuf, hpre⟩ :=
    (selected_OK cfg part ctx b cache c hc).1
  have haffeq : c.affix.data.length = c.affix.length := rfl
  have hother : ∀ (lo hi : Nat),
      (∀ d ∈ select_non_overlapping (extract_candidates_from_part cfg part ctx b cache).1,
        (d.start, d.stop) ≠ (c.start, c.stop) → d.stop ≤ lo ∨ hi ≤ d.start) →
      ∀ r ∈ pySortDesc repLt (assignPlaceholders cfg
        (select_non_overlapping (extract_candidates_from_part cfg part ctx b cache).1)
        nm ntp idx an).reps, r ≠ (c.start, c.stop, ph) → r.2.1 ≤ lo ∨ hi ≤ r.1 := by
    intro lo hi hdisj r hr hrne
    have hrr := hperm.mem_iff.mp hr
    have hrm : (r.1, r.2.1) ∈ (assignPlaceholders cfg
        (select_non_overlapping (extract_candidates_from_part cfg part ctx b cache).1)
        nm ntp idx an).reps.map (fun r => (r.1, r.2.1)) := List.mem_map_of_mem _ hrr
    rw [hspans, List.mem_map] at hrm
    obtain ⟨d, hd, hdr⟩ := hrm
    injection hdr with hdr1 hdr2
    by_cases hspan : (d.start, d.stop) = (c.start, c.stop)
    · exfalso
      injection hspan with hs1 hs2
      have hsymm : Symmetric RepNoOv := fun x y h => repNoOv_symm h
      have hRno' : ¬(r.1 < c.stop ∧ c.start < r.2.1) :=
        (hdescnov.forall hsymm) hr hdmem hrne
      exact hRno' ⟨by omega, by omega⟩
    · have := hdisj d hd hspan
      omega
  refine ⟨ph, hph, ?_, ?_⟩
  · intro hsfxT
    exact applyReplacements_adjacent_after _ part c.affix.data hdmem hbounds hchain
      (by rw [haffeq]; exact (hsuf hsfxT).1) (by rw [haffeq]; exact (hsuf hsfxT).2)
      (by
        intro r hr hrne
        rw [haffeq]
        exact hother c.stop (c.stop + c.affix.length) (hdisjS hsfxT) r hr hrne)
  · intro hpfxT
    exact applyReplacements_adjacent_before _ part c.affix.data hdmem hbounds hchain
      (by rw [haffeq]; exact (hpre hpfxT).1)
      (by rw [haffeq]; exact (hpre hpfxT).2)
      (by
        intro r hr hrne
        rw [haffeq]
        exact hother (c.start - c.affix.length) c.start (hdisjP hpfxT) r hr hrne)

/-- `extract_and_replace_names` written out through its loop. -/
theorem extract_final_state (cfg : NameGuardConfig) (text sep : String) :
    extract_and_replace_names cfg text sep =
      (⟨joinWithSep sep.data ((pySplit text.data sep.data).enum.foldl
          (processPart cfg text)
          { name_map := [], name_to_placeholder := [], name_index := 0,
            occurrence_cache := [], replaced_parts := [], all_names := [] }).replaced_parts⟩,
       ((pySplit text.data sep.data).enum.foldl (processPart cfg text)
          { name_map := [], name_to_placeholder := [], name_index := 0,
            occurrence_cache := [], replaced_parts := [], all_names := [] }).name_map,
       ((pySplit text.data sep.data).enum.foldl (processPart cfg text)
          { name_map := [], name_to_placeholder := [], name_index := 0,
            occurrence_cache := [], replaced_parts := [], all_names := [] }).all_names) :=
  rfl

end NameGuardV2

/-! ## The claims -/

set_option maxRecDepth 100000

section Claims

open NameGuard NameGuardV2

/-- C1: every word on the `known_names` allow-list is accepted by
`is_name` with the fixed sentinel score 999 — in both implementations —
regardless of the strong-exclusion gate, the `exclude_names` deny-list,
the strong-signal gate and the threshold; in particular a word on both
the allow-list and the deny-list is accepted. -/
theorem claim_c1_allow_list_precedence (cfg : NameGuardConfig) (word context : String)
    (is_call_position has_affix : Bool) (cache : List (String × Nat))
    (position : Nat) (is_utterance_start is_after_sep skip : Bool)
    (h : memStr cfg.known_names word = true) :
    NameGuardV2.is_name cfg word context is_call_position has_affix cache =
      ((true, 999), cache) ∧
    NameGuardV1.is_name cfg word context position is_utterance_start is_after_sep skip =
      (true, 999, [("known_name", 999)]) := by
  constructor
  · unfold NameGuardV2.is_name
    rw [h]
    rfl
  · unfold NameGuardV1.is_name
    rw [h]
    rfl

/-- C1 witness: `张三` is simultaneously allow-listed, deny-listed and a
kinship role (which gate 1 would otherwise reject), yet both
implementations accept it with score 999. -/
theorem claim_c1_witness :
    memStr exampleCfgBothLists.known_names "张三" = true ∧
    (NameGuardV2.is_name exampleCfgBothLists "张三" "张三说" false false [] =
        ((true, 999), []) ∧
      NameGuardV1.is_name exampleCfgBothLists "张三" "张三说" 0 false false false =
        (true, 999, [("known_name", 999)])) :=
  ⟨rfl, claim_c1_allow_list_precedence exampleCfgBothLists "张三" "张三说" false false []
    0 false false false rfl⟩

/-- C2: within one `extract_and_replace_names` call, the returned
first-seen name list has no duplicates, the placeholder→name map has one
entry per distinct name (its values, in order, are exactly that list),
and its size equals the list's length. -/
theorem claim_c2_dedup_invariant (cfg : NameGuardConfig) (text sep : String) :
    (extract_and_replace_names cfg text sep).2.2.Nodup ∧
    (extract_and_replace_names cfg text sep).2.1.map Prod.snd =
      (extract_and_replace_names cfg text sep).2.2 ∧
    (extract_and_replace_names cfg text sep).2.1.length =
      (extract_and_replace_names cfg text sep).2.2.length := by
  rw [extract_final_state]
  have hinv := foldl_StInv cfg text (pySplit text.data sep.data).enum
    { name_map := [], name_to_placeholder := [], name_index := 0,
      occurrence_cache := [], replaced_parts := [], all_names := [] }
    ⟨List.nodup_nil, rfl, rfl, rfl⟩
  exact ⟨hinv.1, hinv.2.1, hinv.2.2.1⟩

/-- C3: the candidate set accepted by the overlap resolver is pairwise
non-overlapping under the half-open interval test
`a.start < b.end && a.end > b.start`. -/
theorem claim_c3_non_overlap (candidates : List NameCandidate) :
    (select_non_overlapping candidates).Pairwise
      (fun a b => ¬(a.start < b.stop ∧ b.start < a.stop)) :=
  select_non_overlapping_pairwise candidates

/-- C5: the overlap resolver considers candidates in the order produced by
the stable descending sort on `priority = (has-affix, score, -start)`:
every affixed candidate is considered before every non-affixed one
regardless of score, and candidates with equal affix status and equal
score are considered in order of increasing start offset. -/
theorem claim_c5_priority_order (candidates : List NameCandidate)
    (i j : Fin (pySortDesc candLt candidates).length) (hij : i < j) :
    (candidates ≠ [] → select_non_overlapping candidates =
      selectGreedy [] (pySortDesc candLt candidates)) ∧
    (((pySortDesc candLt candidates).get j).has_affix = true →
      ((pySortDesc candLt candidates).get i).has_affix = true) ∧
    (((pySortDesc candLt candidates).get i).has_affix =
        ((pySortDesc candLt candidates).get j).has_affix →
      ((pySortDesc candLt candidates).get i).score =
        ((pySortDesc candLt candidates).get j).score →
      ((pySortDesc candLt candidates).get i).start ≤
        ((pySortDesc candLt candidates).get j).start) := by
  refine ⟨?_, priority_order_facts
    (List.pairwise_iff_get.mp (sortCandidates_pairwise candidates) i j hij)⟩
  intro hne
  unfold select_non_overlapping
  rw [if_neg (by simpa [List.isEmpty_iff] using hne)]

/-- C5 witness: on `exampleCands` the sort puts the affixed candidate
first despite its low score, and orders the two equal-priority plain
candidates by start offset. -/
theorem claim_c5_witness :
    ((⟨1, by decide⟩ : Fin (pySortDesc candLt exampleCands).length) < ⟨2, by decide⟩) ∧
    ((exampleCands ≠ [] → select_non_overlapping exampleCands =
        selectGreedy [] (pySortDesc candLt exampleCands)) ∧
      (((pySortDesc candLt exampleCands).get ⟨2, by decide⟩).has_affix = true →
        ((pySortDesc candLt exampleCands).get ⟨1, by decide⟩).has_affix = true) ∧
      (((pySortDesc candLt exampleCands).get ⟨1, by decide⟩).has_affix =
          ((pySortDesc candLt exampleCands).get ⟨2, by decide⟩).has_affix →
        ((pySortDesc candLt exampleCands).get ⟨1, by decide⟩).score =
          ((pySortDesc candLt exampleCands).get ⟨2, by decide⟩).score →
        ((pySortDesc candLt exampleCands).get ⟨1, by decide⟩).start ≤
          ((pySortDesc candLt exampleCands).get ⟨2, by decide⟩).start)) :=
  ⟨by decide, claim_c5_priority_order exampleCands ⟨1, by decide⟩ ⟨2, by decide⟩ (by decide)⟩

/-- A word extracted via affix decomposition always carries the strong
signal. -/
theorem score_candidate_strong_of_affix (cfg : NameGuardConfig) (word context : String)
    (is_call_position : Bool) (cache : List (String × Nat)) :
    (score_candidate cfg word context is_call_position true cache).2.1 = true := by
  unfold score_candidate
  simp

/-- C7: when `require_strong_signal` is on and the gates/lists do not
already decide the word, a non-affixed word with no strong signal is
rejected with score exactly 0 (unlike the −999 of gate-1/deny-list
rejections), while an affixed word automatically passes gate 2 and is
judged purely by its score against the threshold. -/
theorem claim_c7_strong_signal_gate (cfg : NameGuardConfig) (word context : String)
    (is_call_position : Bool) (cache : List (String × Nat))
    (hknown : memStr cfg.known_names word = false)
    (hexcl : is_strongly_excluded cfg word = false)
    (hdeny : memStr cfg.exclude_names word = false)
    (hreq : cfg.require_strong_signal = true) :
    ((score_candidate cfg word context is_call_position false cache).2.1 = false →
      NameGuardV2.is_name cfg word context is_call_position false cache =
        ((false, 0), (score_candidate cfg word context is_call_position false cache).2.2)) ∧
    ((score_candidate cfg word context is_call_position true cache).2.1 = true ∧
      NameGuardV2.is_name cfg word context is_call_position true cache =
        ((decide (cfg.threshold ≤
            (score_candidate cfg word context is_call_position true cache).1),
          (score_candidate cfg word context is_call_position true cache).1),
         (score_candidate cfg word context is_call_position true cache).2.2)) := by
  constructor
  · intro hng
    unfold NameGuardV2.is_name
    rw [hknown, hexcl, hdeny]
    simp only [Bool.false_eq_true, if_false]
    rw [hreq, hng]
    rfl
  · refine ⟨score_candidate_strong_of_affix cfg word context is_call_position cache, ?_⟩
    unfold NameGuardV2.is_name
    rw [hknown, hexcl, hdeny]
    simp only [Bool.false_eq_true, if_false]
    rw [score_candidate_strong_of_affix cfg word context is_call_position cache]
    simp

/-- C7 witness: with empty word lists, `平安` seen once and not in call
position has no strong signal and is rejected with score 0, while the
affixed path passes gate 2. -/
theorem claim_c7_witness :
    (memStr exampleCfgPlain.known_names "平安" = false ∧
      is_strongly_excluded exampleCfgPlain "平安" = false ∧
      memStr exampleCfgPlain.exclude_names "平安" = false ∧
      exampleCfgPlain.require_strong_signal = true) ∧
    (((score_candidate exampleCfgPlain "平安" "平安" false false []).2.1 = false →
      NameGuardV2.is_name exampleCfgPlain "平安" "平安" false false [] =
        ((false, 0), (score_candidate exampleCfgPlain "平安" "平安" false false []).2.2)) ∧
     ((score_candidate exampleCfgPlain "平安" "平安" false true []).2.1 = true ∧
      NameGuardV2.is_name exampleCfgPlain "平安" "平安" false true [] =
        ((decide (exampleCfgPlain.threshold ≤
            (score_candidate exampleCfgPlain "平安" "平安" false true []).1),
          (score_candidate exampleCfgPlain "平安" "平安" false true []).1),
         (score_candidate exampleCfgPlain "平安" "平安" false true []).2.2))) :=
  ⟨⟨rfl, rfl, rfl, rfl⟩,
   claim_c7_strong_signal_gate exampleCfgPlain "平安" "平安" false [] rfl rfl rfl rfl⟩

/-- C6 counterexample: with `平安` allow-listed, the sub-span `平安` of
`天平安` is strictly interior on the left and has no following character,
so it meets none of the claim's three conditions (segment start, boundary
before, boundary character after) — yet it is evaluated and becomes a
candidate, because the code also accepts spans that end at the segment
end. -/
theorem claim_c6_counterexample :
    ∃ c ∈ (extract_candidates_from_part exampleCfgKnown "天平安".data "天平安" true []).1,
      c.has_affix = false ∧ ¬(c.start = 0) ∧
      boundary_char_at "天平安".data (c.start - 1) = false ∧
      boundary_char_at "天平安".data c.stop = false := by
  decide

/-- C6 amended: a non-affixed sub-span becomes a candidate only if it is
1-3 characters long and starts at the segment start, or is immediately
preceded by a boundary character, or is immediately followed by a
boundary character, **or ends at the segment end**. -/
theorem claim_c6_boundary_filter (cfg : NameGuardConfig) (part : List Char)
    (ctx : String) (b : Bool) (cache : List (String × Nat)) (c : NameCandidate)
    (hc : c ∈ (extract_candidates_from_part cfg part ctx b cache).1)
    (hplain : c.has_affix = false) :
    (c.start = 0 ∨ boundary_char_at part (c.start - 1) = true ∨
      boundary_char_at part c.stop = true ∨ c.stop = part.length) ∧
    1 ≤ c.name.length ∧ c.name.length ≤ 3 := by
  have h := (extract_candidates_OK cfg part ctx b cache c hc).2 hplain
  refine ⟨?_, h.2.1, h.2.2⟩
  have hb := h.1
  unfold is_at_boundary at hb
  simp only [Bool.or_eq_true, beq_iff_eq] at hb
  tauto

/-- C6 amended witness: the allow-listed `平安` inside `天平安` is a
candidate; the theorem certifies it met the (amended) boundary filter. -/
theorem claim_c6_witness :
    (({ name := "平安", start := 1, stop := 3, score := 999, has_affix := false } :
        NameCandidate) ∈
      (extract_candidates_from_part exampleCfgKnown "天平安".data "天平安" true []).1 ∧
      ({ name := "平安", start := 1, stop := 3, score := 999, has_affix := false } :
        NameCandidate).has_affix = false) ∧
    ((1 = 0 ∨ boundary_char_at "天平安".data (1 - 1) = true ∨
        boundary_char_at "天平安".data 3 = true ∨ 3 = "天平安".data.length) ∧
      1 ≤ ("平安" : String).length ∧ ("平安" : String).length ≤ 3) :=
  ⟨⟨by decide, rfl⟩,
   claim_c6_boundary_filter exampleCfgKnown "天平安".data "天平安" true []
     { name := "平安", start := 1, stop := 3, score := 999, has_affix := false }
     (by decide) rfl⟩

/-- C9: for the empty string or any text with no CJK characters,
`extract_and_replace_names` returns the input text unchanged with an
empty placeholder map and an empty name list, and every part yields zero
candidates; no input aborts (the model is a total function). -/
theorem claim_c9_degenerate (cfg : NameGuardConfig) (text sep : String)
    (_hsep : sep ≠ "") (hcjk : ∀ ch ∈ text.data, isCJK ch = false) :
    extract_and_replace_names cfg text sep = (text, [], []) ∧
    ∀ p ∈ pySplit text.data sep.data, ∀ (b : Bool) (cache : List (String × Nat)),
      (extract_candidates_from_part cfg p text b cache).1 = [] := by
  have hparts : ∀ p ∈ pySplit text.data sep.data, ∀ ch ∈ p, isCJK ch = false :=
    fun p hp ch hch => hcjk ch (pySplit_chars text.data sep.data p hp ch hch)
  constructor
  · rw [extract_final_state]
    rw [foldl_no_cjk cfg text _ _ (fun pr hpr ch hch =>
      hparts pr.2 (List.snd_mem_of_mem_enum hpr) ch hch)]
    simp only [List.enum_map_snd, List.nil_append]
    rw [pySplit_join]
  · intro p hp b cache
    rw [extract_candidates_no_cjk cfg p text b cache (hparts p hp)]

/-- C9 witness: an ASCII text containing a separator round-trips
unchanged with empty outputs. -/
theorem claim_c9_witness :
    ((" <sep> " : String) ≠ "" ∧
      ∀ ch ∈ ("hello <sep> world!" : String).data, isCJK ch = false) ∧
    (extract_and_replace_names exampleCfgSuffix "hello <sep> world!" " <sep> " =
        ("hello <sep> world!", [], []) ∧
      ∀ p ∈ pySplit ("hello <sep> world!" : String).data (" <sep> " : String).data,
        ∀ (b : Bool) (cache : List (String × Nat)),
          (extract_candidates_from_part exampleCfgSuffix p "hello <sep> world!" b cache).1
            = []) :=
  ⟨⟨by decide, by decide⟩,
   claim_c9_degenerate exampleCfgSuffix "hello <sep> world!" " <sep> "
     (by decide) (by decide)⟩

/-- C10: every replacement triple built for a part satisfies
`start ≤ end ≤ len(part)`, and comes from a selected candidate whose name
is exactly the `[start, end)` slice of the part, with
`end - start = len(name)`; hence the descending-offset rewrite only ever
splices in-range and substitutes precisely the detected name substring. -/
theorem claim_c10_replacement_safety (cfg : NameGuardConfig) (part : List Char)
    (ctx : String) (b : Bool) (cache : List (String × Nat))
    (nm ntp : List (String × String)) (idx : Nat) (an : List String) :
    ∀ r ∈ (assignPlaceholders cfg (select_non_overlapping
        (extract_candidates_from_part cfg part ctx b cache).1) nm ntp idx an).reps,
      r.1 ≤ r.2.1 ∧ r.2.1 ≤ part.length ∧
      ∃ c ∈ select_non_overlapping (extract_candidates_from_part cfg part ctx b cache).1,
        c.start = r.1 ∧ c.stop = r.2.1 ∧
        (part.drop r.1).take (r.2.1 - r.1) = c.name.data ∧
        r.2.1 - r.1 = c.name.length := by
  intro r hr
  have hspans := assignPlaceholders_reps_spans cfg
    (select_non_overlapping (extract_candidates_from_part cfg part ctx b cache).1)
    nm ntp idx an
  have hrm := List.mem_map_of_mem (fun r : Nat × Nat × String => (r.1, r.2.1)) hr
  rw [hspans, List.mem_map] at hrm
  obtain ⟨c, hcmem, hcr⟩ := hrm
  injection hcr with h1 h2
  obtain ⟨hlt, hle, hdiff, hslice, _, _⟩ := (selected_OK cfg part ctx b cache c hcmem).1
  refine ⟨by omega, by omega, c, hcmem, h1, h2, ?_, by omega⟩
  rw [← h1, ← h2, hdiff]
  exact hslice

/-- C10 witness: in `平安，平安哥` the affixed occurrence of `平安`
produces the in-range triple `(3, 5, <<NAME_0>>)` whose slice is exactly
the name. -/
theorem claim_c10_witness :
    ((3, 5, "<<NAME_0>>") ∈ (assignPlaceholders exampleCfgSuffix (select_non_overlapping
        (extract_candidates_from_part exampleCfgSuffix ("平安，平安哥" : String).data
          "平安，平安哥" true []).1) [] [] 0 []).reps) ∧
    (3 ≤ 5 ∧ 5 ≤ ("平安，平安哥" : String).data.length ∧
      ∃ c ∈ select_non_overlapping (extract_candidates_from_part exampleCfgSuffix
          ("平安，平安哥" : String).data "平安，平安哥" true []).1,
        c.start = 3 ∧ c.stop = 5 ∧
        (("平安，平安哥" : String).data.drop 3).take (5 - 3) = c.name.data ∧
        5 - 3 = c.name.length) :=
  ⟨by decide,
   claim_c10_replacement_safety exampleCfgSuffix ("平安，平安哥" : String).data
     "平安，平安哥" true [] [] [] 0 [] (3, 5, "<<NAME_0>>") (by decide)⟩

/-- C4 counterexample: in `王哥斯` (with `哥斯` allow-listed) the affixed
candidate `王` + suffix `哥` is accepted, but the allow-listed candidate
`哥斯` whose span covers the suffix character is accepted too, so the
suffix `哥` is replaced rather than preserved: the rewritten text is
`<<NAME_0>><<NAME_1>>` and `<<NAME_0>>哥` occurs nowhere in it. -/
theorem claim_c4_counterexample :
    (∃ c ∈ select_non_overlapping (extract_candidates_from_part exampleCfgOverlap
        ("王哥斯" : String).data "王哥斯" true []).1,
      c.name = "王" ∧ c.has_affix = true ∧ c.affix_type = "suffix" ∧ c.affix = "哥") ∧
    (extract_and_replace_names exampleCfgOverlap "王哥斯" " <sep> ").2.1 =
      [("<<NAME_0>>", "王"), ("<<NAME_1>>", "哥斯")] ∧
    (extract_and_replace_names exampleCfgOverlap "王哥斯" " <sep> ").1 =
      "<<NAME_0>><<NAME_1>>" ∧
    ¬(("<<NAME_0>>哥" : String).data <:+:
      (extract_and_replace_names exampleCfgOverlap "王哥斯" " <sep> ").1.data) := by
  decide

/-- C4 amended: only the name span is ever replaced (see the C10 theorem
for the span facts), and for every accepted affixed candidate whose affix
character span is disjoint from every other accepted candidate's span,
the affix text is preserved verbatim adjacent to that candidate's
placeholder in the rewritten part — a suffix immediately after it, a
prefix immediately before it. -/
theorem claim_c4_affix_adjacency (cfg : NameGuardConfig) (part : List Char) (ctx : String)
    (b : Bool) (cache : List (String × Nat)) (nm ntp : List (String × String))
    (idx : Nat) (an : List String) (c : NameCandidate)
    (hc : c ∈ select_non_overlapping (extract_candidates_from_part cfg part ctx b cache).1)
    (hdisjS : c.affix_type = "suffix" →
      ∀ d ∈ select_non_overlapping (extract_candidates_from_part cfg part ctx b cache).1,
        (d.start, d.stop) ≠ (c.start, c.stop) →
        d.stop ≤ c.stop ∨ c.stop + c.affix.length ≤ d.start)
    (hdisjP : c.affix_type = "prefix" →
      ∀ d ∈ select_non_overlapping (extract_candidates_from_part cfg part ctx b cache).1,
        (d.start, d.stop) ≠ (c.start, c.stop) →
        d.stop ≤ c.start - c.affix.length ∨ c.start ≤ d.start) :
    ∃ ph, (c.start, c.stop, ph) ∈ (assignPlaceholders cfg
        (select_non_overlapping (extract_candidates_from_part cfg part ctx b cache).1)
        nm ntp idx an).reps ∧
      (c.affix_type = "suffix" → (ph.data ++ c.affix.data) <:+:
        applyReplacements part (pySortDesc repLt (assignPlaceholders cfg
          (select_non_overlapping (extract_candidates_from_part cfg part ctx b cache).1)
          nm ntp idx an).reps)) ∧
      (c.affix_type = "prefix" → (c.affix.data ++ ph.data) <:+:
        applyReplacements part (pySortDesc repLt (assignPlaceholders cfg
          (select_non_overlapping (extract_candidates_from_part cfg part ctx b cache).1)
          nm ntp idx an).reps)) :=
  selected_affix_adjacent cfg part ctx b cache nm ntp idx an c hc hdisjS hdisjP

/-- C4 amended witness: in `平安，平安哥` the suffixed candidate `平安`
at `[3, 5)` has its affix span `[5, 6)` disjoint from the only other
accepted span `[0, 2)`, and indeed `<<NAME_0>>哥` survives in the
rewritten part. -/
theorem claim_c4_witness :
    (({ name := "平安", start := 3, stop := 5, score := 150, has_affix := true,
        affix_type := "suffix", affix := "哥" } : NameCandidate) ∈
      select_non_overlapping (extract_candidates_from_part exampleCfgSuffix
        ("平安，平安哥" : String).data "平安，平安哥" true []).1) ∧
    (∃ ph, (3, 5, ph) ∈ (assignPlaceholders exampleCfgSuffix
        (select_non_overlapping (extract_candidates_from_part exampleCfgSuffix
          ("平安，平安哥" : String).data "平安，平安哥" true []).1) [] [] 0 []).reps ∧
      (("suffix" : String) = "suffix" → (ph.data ++ ("哥" : String).data) <:+:
        applyReplacements ("平安，平安哥" : String).data
          (pySortDesc repLt (assignPlaceholders exampleCfgSuffix
            (select_non_overlapping (extract_candidates_from_part exampleCfgSuffix
              ("平安，平安哥" : String).data "平安，平安哥" true []).1) [] [] 0 []).reps)) ∧
      (("suffix" : String) = "prefix" → (("哥" : String).data ++ ph.data) <:+:
        applyReplacements ("平安，平安哥" : String).data
          (pySortDesc repLt (assignPlaceholders exampleCfgSuffix
            (select_non_overlapping (extract_candidates_from_part exampleCfgSuffix
              ("平安，平安哥" : String).data "平安，平安哥" true []).1) [] [] 0 []).reps))) :=
  ⟨by decide,
   claim_c4_affix_adjacency exampleCfgSuffix ("平安，平安哥" : String).data "平安，平安哥"
     true [] [] [] 0 []
     { name := "平安", start := 3, stop := 5, score := 150, has_affix := true,
       affix_type := "suffix", affix := "哥" }
     (by decide) (by decide) (by decide)⟩

/-- C8 counterexample: in `平安，平安哥` the sole map value `平安` is
replaced everywhere it was detected, so it does not occur in the
rewritten text at all — the claim fails for the map's values. -/
theorem claim_c8_counterexample :
    ("<<NAME_0>>", "平安") ∈
      (extract_and_replace_names exampleCfgSuffix "平安，平安哥" " <sep> ").2.1 ∧
    ¬(("平安" : String).data <:+:
      (extract_and_replace_names exampleCfgSuffix "平安，平安哥" " <sep> ").1.data) := by
  decide

/-- C8 amended: every **key** (placeholder) of the returned
placeholder→name map occurs verbatim as a substring of the returned
rewritten text at least once. -/
theorem claim_c8_placeholder_occurs (cfg : NameGuardConfig) (text sep : String) :
    ∀ pn ∈ (extract_and_replace_names cfg text sep).2.1,
      pn.1.data <:+: (extract_and_replace_names cfg text sep).1.data := by
  rw [extract_final_state]
  intro pn hpn
  have hfin := foldl_PhInv cfg text (pySplit text.data sep.data).enum
    { name_map := [], name_to_placeholder := [], name_index := 0,
      occurrence_cache := [], replaced_parts := [], all_names := [] }
    (fun pn h => absurd h (by simp))
  obtain ⟨rp, hrp, hinf⟩ := hfin pn hpn
  exact hinf.trans (mem_joinWithSep_substring sep.data hrp)

/-- C8 amended witness: the placeholder `<<NAME_0>>` minted for `平安`
occurs in the rewritten text. -/
theorem claim_c8_witness :
    ("<<NAME_0>>", "平安") ∈
      (extract_and_replace_names exampleCfgSuffix "平安，平安哥" " <sep> ").2.1 ∧
    ("<<NAME_0>>", "平安").1.data <:+:
      (extract_and_replace_names exampleCfgSuffix "平安，平安哥" " <sep> ").1.data :=
  ⟨by decide,
   claim_c8_placeholder_occurs exampleCfgSuffix "平安，平安哥" " <sep> "
     ("<<NAME_0>>", "平安") (by decide)⟩

end Claims
